import Mathlib

/-! Verification of the core behaviours of the tochkavnimanie bot: the
per-user rate limiter and file-volume guard, the broadcast dispatcher, the
submission state machine, the storage-path sanitizers and the profile
validators.  Timestamps are modelled as rationals; all definitions are
shallow embeddings of the corresponding Python functions. -/

namespace TochkaBot

/-! ## Abuse guard (`ThrottlingMiddleware`, src/bot/middlewares/throttling.py)

A per-user record mirrors the dictionary
`{'last_time': float, 'warnings': int, 'blocked_until': float}` (created with
all three fields zero).  `throttleStep` embeds one pass through
`ThrottlingMiddleware.__call__` for an event of a given class arriving at
time `now`; the boolean result tells whether the event was forwarded to the
handler. -/

structure ThrottleConfig where
  message_limit : ℚ
  callback_limit : ℚ
  spam_threshold : ℕ
  block_duration : ℚ

structure ThrottleRec where
  last_time : ℚ
  warnings : ℕ
  blocked_until : ℚ
deriving DecidableEq

inductive EvClass where
  | message
  | callback
deriving DecidableEq

def evLimit (cfg : ThrottleConfig) : EvClass → ℚ
  | .message => cfg.message_limit
  | .callback => cfg.callback_limit

def throttleStep (cfg : ThrottleConfig) (st : ThrottleRec) (c : EvClass) (now : ℚ) :
    ThrottleRec × Bool :=
  if st.blocked_until > now then
    (st, false)
  else
    let time_passed := now - st.last_time
    let limit := evLimit cfg c
    if time_passed < limit then
      if st.warnings + 1 ≥ cfg.spam_threshold then
        ({ last_time := now, warnings := 0,
           blocked_until := now + cfg.block_duration }, false)
      else
        ({ last_time := now, warnings := st.warnings + 1,
           blocked_until := st.blocked_until }, false)
    else
      let w := if 0 < st.warnings ∧ time_passed > limit * 3
               then st.warnings - 1 else st.warnings
      ({ last_time := now, warnings := w, blocked_until := st.blocked_until }, true)

/-- Run the guard over a list of events `(class, arrival time)`, returning the
final record and, per event, whether it was forwarded to the handler. -/
def throttleRun (cfg : ThrottleConfig) (st : ThrottleRec) :
    List (EvClass × ℚ) → ThrottleRec × List Bool
  | [] => (st, [])
  | e :: es =>
      let r := throttleStep cfg st e.1 e.2
      let rest := throttleRun cfg r.1 es
      (rest.1, r.2 :: rest.2)

theorem throttleRun_cons_fst (cfg : ThrottleConfig) (st : ThrottleRec)
    (e : EvClass × ℚ) (es : List (EvClass × ℚ)) :
    (throttleRun cfg st (e :: es)).1
      = (throttleRun cfg (throttleStep cfg st e.1 e.2).1 es).1 := rfl

theorem throttleRun_cons_snd (cfg : ThrottleConfig) (st : ThrottleRec)
    (e : EvClass × ℚ) (es : List (EvClass × ℚ)) :
    (throttleRun cfg st (e :: es)).2
      = (throttleStep cfg st e.1 e.2).2
          :: (throttleRun cfg (throttleStep cfg st e.1 e.2).1 es).2 := rfl

/-- The events arrive in order and each one strictly less than its class
threshold after the previously recorded event time. -/
def rapidFrom (cfg : ThrottleConfig) : ℚ → List (EvClass × ℚ) → Prop
  | _, [] => True
  | last, e :: es => last ≤ e.2 ∧ e.2 - last < evLimit cfg e.1 ∧ rapidFrom cfg e.2 es

theorem rapidFrom_le_of_mem (cfg : ThrottleConfig) :
    ∀ (es : List (EvClass × ℚ)) (t : ℚ), rapidFrom cfg t es → ∀ p ∈ es, t ≤ p.2 := by
  intro es
  induction es with
  | nil => intro t _ p hp; cases hp
  | cons e es ih =>
    intro t h p hp
    rcases List.mem_cons.mp hp with hp | hp
    · rw [hp]; exact h.1
    · exact le_trans h.1 (ih e.2 h.2.2 p hp)

theorem rapidFrom_take (cfg : ThrottleConfig) :
    ∀ (es : List (EvClass × ℚ)) (t : ℚ) (k : ℕ),
      rapidFrom cfg t es → rapidFrom cfg t (es.take k) := by
  intro es
  induction es with
  | nil => intro t k _; simp [rapidFrom]
  | cons e es ih =>
    intro t k h
    cases k with
    | zero => simp [rapidFrom]
    | succ k => exact ⟨h.1, h.2.1, ih e.2 k h.2.2⟩

/-- While the warning budget is not yet exhausted, every rapid event is
refused, increments `warnings`, rewrites `last_time`, and leaves
`blocked_until` untouched. -/
theorem throttleRun_warn_accumulate (cfg : ThrottleConfig) :
    ∀ (es : List (EvClass × ℚ)) (st : ThrottleRec),
      st.warnings + es.length < cfg.spam_threshold →
      (∀ p ∈ es, st.blocked_until ≤ p.2) →
      rapidFrom cfg st.last_time es →
      (throttleRun cfg st es).1 =
        { last_time := (es.map Prod.snd).getLastD st.last_time,
          warnings := st.warnings + es.length,
          blocked_until := st.blocked_until } ∧
      ∀ b ∈ (throttleRun cfg st es).2, b = false := by
  intro es
  induction es with
  | nil =>
    intro st _ _ _
    constructor
    · simp [throttleRun]
    · intro b hb; simp [throttleRun] at hb
  | cons e es ih =>
    intro st hcount hblk hrapid
    have hnotblk : ¬ st.blocked_until > e.2 := not_lt.mpr (hblk e (by simp))
    have hfast : e.2 - st.last_time < evLimit cfg e.1 := hrapid.2.1
    have hlt : ¬ st.warnings + 1 ≥ cfg.spam_threshold := by
      simp only [List.length_cons] at hcount; omega
    have hstep : throttleStep cfg st e.1 e.2 =
        ({ last_time := e.2, warnings := st.warnings + 1,
           blocked_until := st.blocked_until }, false) := by
      unfold throttleStep
      rw [if_neg hnotblk, if_pos hfast, if_neg hlt]
    set st1 : ThrottleRec :=
      { last_time := e.2, warnings := st.warnings + 1,
        blocked_until := st.blocked_until } with hst1
    have hcount1 : st1.warnings + es.length < cfg.spam_threshold := by
      simp only [hst1, List.length_cons] at hcount ⊢; omega
    have hblk1 : ∀ p ∈ es, st1.blocked_until ≤ p.2 := by
      intro p hp; exact hblk p (by simp [hp])
    have hrapid1 : rapidFrom cfg st1.last_time es := hrapid.2.2
    have hrest := ih st1 hcount1 hblk1 hrapid1
    constructor
    · rw [throttleRun_cons_fst, hstep]
      rw [hrest.1]
      cases es with
      | nil => simp [hst1]
      | cons f fs =>
        simp only [hst1, List.map_cons, List.getLastD_cons, List.length_cons,
          ThrottleRec.mk.injEq, true_and, and_true]
        omega
    · intro b hb
      rw [throttleRun_cons_snd, hstep] at hb
      rcases List.mem_cons.mp hb with hb | hb
      · exact hb
      · exact hrest.2 b hb

/-- A burst that exhausts the warning budget: every event is refused and the
final event installs the block. -/
theorem throttleRun_spam_cascade (cfg : ThrottleConfig) :
    ∀ (es : List (EvClass × ℚ)) (st : ThrottleRec) (hne : es ≠ []),
      st.warnings + es.length = cfg.spam_threshold →
      (∀ p ∈ es, st.blocked_until ≤ p.2) →
      rapidFrom cfg st.last_time es →
      (throttleRun cfg st es).1 =
        { last_time := (es.getLast hne).2, warnings := 0,
          blocked_until := (es.getLast hne).2 + cfg.block_duration } ∧
      ∀ b ∈ (throttleRun cfg st es).2, b = false := by
  intro es
  induction es with
  | nil => intro st hne; cases hne rfl
  | cons e es ih =>
    intro st hne hcount hblk hrapid
    have hnotblk : ¬ st.blocked_until > e.2 := not_lt.mpr (hblk e (by simp))
    have hfast : e.2 - st.last_time < evLimit cfg e.1 := hrapid.2.1
    cases es with
    | nil =>
      have hge : st.warnings + 1 ≥ cfg.spam_threshold := by
        simp only [List.length_cons, List.length_nil] at hcount; omega
      have hstep : throttleStep cfg st e.1 e.2 =
          ({ last_time := e.2, warnings := 0,
             blocked_until := e.2 + cfg.block_duration }, false) := by
        unfold throttleStep
        rw [if_neg hnotblk, if_pos hfast, if_pos hge]
      constructor
      · rw [throttleRun_cons_fst, hstep]
        rfl
      · intro b hb
        rw [throttleRun_cons_snd, hstep] at hb
        rcases List.mem_cons.mp hb with hb | hb
        · exact hb
        · simp [throttleRun] at hb
    | cons f fs =>
      have hlt : ¬ st.warnings + 1 ≥ cfg.spam_threshold := by
        simp only [List.length_cons] at hcount; omega
      have hstep : throttleStep cfg st e.1 e.2 =
          ({ last_time := e.2, warnings := st.warnings + 1,
             blocked_until := st.blocked_until }, false) := by
        unfold throttleStep
        rw [if_neg hnotblk, if_pos hfast, if_neg hlt]
      set st1 : ThrottleRec :=
        { last_time := e.2, warnings := st.warnings + 1,
          blocked_until := st.blocked_until } with hst1
      have hcount1 : st1.warnings + (f :: fs).length = cfg.spam_threshold := by
        simp only [hst1, List.length_cons] at hcount ⊢; omega
      have hblk1 : ∀ p ∈ f :: fs, st1.blocked_until ≤ p.2 := by
        intro p hp; exact hblk p (by simp [List.mem_cons] at hp ⊢; tauto)
      have hrapid1 : rapidFrom cfg st1.last_time (f :: fs) := hrapid.2.2
      have hrest := ih st1 (by simp) hcount1 hblk1 hrapid1
      constructor
      · rw [throttleRun_cons_fst, hstep]
        rw [hrest.1]
        rfl
      · intro b hb
        rw [throttleRun_cons_snd, hstep] at hb
        rcases List.mem_cons.mp hb with hb | hb
        · exact hb
        · exact hrest.2 b hb

/-- **C1**: starting from an unblocked record with `warnings = 0`, a run of
`spam_threshold` consecutive events, each arriving strictly less than the
applicable class threshold after the previously recorded event, is refused
in full; the block appears exactly on the last (the `spam_threshold`-th)
event, with `blocked_until = now + block_duration` and `warnings = 0`, and
no earlier event in the run changes `blocked_until`. -/
theorem claim1_spam_threshold_block (cfg : ThrottleConfig) (st : ThrottleRec)
    (es : List (EvClass × ℚ)) (hne : es ≠ [])
    (hlen : es.length = cfg.spam_threshold)
    (hw : st.warnings = 0)
    (hblk : st.blocked_until ≤ (es.head hne).2)
    (hrapid : rapidFrom cfg st.last_time es) :
    ((throttleRun cfg st es).1.blocked_until
        = (es.getLast hne).2 + cfg.block_duration ∧
     (throttleRun cfg st es).1.warnings = 0) ∧
    (∀ b ∈ (throttleRun cfg st es).2, b = false) ∧
    (∀ k < es.length,
      (throttleRun cfg st (es.take k)).1.blocked_until = st.blocked_until) := by
  have hblkall : ∀ p ∈ es, st.blocked_until ≤ p.2 := by
    intro p hp
    cases es with
    | nil => cases hp
    | cons e es =>
      rcases List.mem_cons.mp hp with hp | hp
      · rw [hp]; exact hblk
      · exact le_trans hblk (rapidFrom_le_of_mem cfg es e.2 hrapid.2.2 p hp)
  have hmain := throttleRun_spam_cascade cfg es st hne (by omega) hblkall hrapid
  refine ⟨⟨by rw [hmain.1], by rw [hmain.1]⟩, hmain.2, ?_⟩
  intro k hk
  have htk : st.warnings + (es.take k).length < cfg.spam_threshold := by
    have : (es.take k).length = min k es.length := List.length_take k es
    omega
  have hblkk : ∀ p ∈ es.take k, st.blocked_until ≤ p.2 := by
    intro p hp; exact hblkall p (List.mem_of_mem_take hp)
  have := throttleRun_warn_accumulate cfg (es.take k) st htk hblkk
    (rapidFrom_take cfg es st.last_time k hrapid)
  rw [this.1]

/-- Closed instance of C1: five message events at time 0 against a fresh
record with threshold 5 and block duration 60. -/
theorem claim1_spam_threshold_block_witness :
    (throttleRun ⟨1, 1, 5, 60⟩ ⟨0, 0, 0⟩
        [(EvClass.message, (0:ℚ)), (.message, 0), (.message, 0),
         (.message, 0), (.message, 0)]).1.blocked_until = 60 := by
  have h := claim1_spam_threshold_block ⟨1, 1, 5, 60⟩ ⟨0, 0, 0⟩
    [(EvClass.message, (0:ℚ)), (.message, 0), (.message, 0),
     (.message, 0), (.message, 0)]
    (by simp) rfl rfl (by norm_num [List.head])
    (by norm_num [rapidFrom, evLimit])
  have h1 := h.1.1
  simp only [List.getLast] at h1
  rw [h1]
  norm_num

/-- **C6**: while `blocked_until > now` an event is refused and the record is
returned unchanged; moreover (for a non-negative block duration)
`blocked_until` never decreases across a step, and it changes only by being
rewritten to `now + block_duration` when a new block is imposed at a moment
the old block had already expired. -/
theorem claim6_blocked_refused (cfg : ThrottleConfig) (st : ThrottleRec)
    (c : EvClass) (now : ℚ) (hdur : 0 ≤ cfg.block_duration) :
    (st.blocked_until > now → throttleStep cfg st c now = (st, false)) ∧
    st.blocked_until ≤ (throttleStep cfg st c now).1.blocked_until ∧
    ((throttleStep cfg st c now).1.blocked_until = st.blocked_until ∨
      (st.blocked_until ≤ now ∧
        (throttleStep cfg st c now).1.blocked_until = now + cfg.block_duration)) := by
  have hstep : throttleStep cfg st c now =
      if st.blocked_until > now then (st, false)
      else if now - st.last_time < evLimit cfg c then
        (if st.warnings + 1 ≥ cfg.spam_threshold then
          ({ last_time := now, warnings := 0,
             blocked_until := now + cfg.block_duration }, false)
         else
          ({ last_time := now, warnings := st.warnings + 1,
             blocked_until := st.blocked_until }, false))
      else
        ({ last_time := now,
           warnings := if 0 < st.warnings ∧ now - st.last_time > evLimit cfg c * 3
                       then st.warnings - 1 else st.warnings,
           blocked_until := st.blocked_until }, true) := rfl
  refine ⟨fun h => ?_, ?_, ?_⟩
  · rw [hstep, if_pos h]
  · rw [hstep]
    split_ifs with h1 h2 h3
    · exact le_refl _
    · have hle : st.blocked_until ≤ now := not_lt.mp h1
      show st.blocked_until ≤ now + cfg.block_duration
      linarith
    · exact le_refl _
    · exact le_refl _
    · exact le_refl _
  · rw [hstep]
    split_ifs with h1 h2 h3
    · exact Or.inl rfl
    · exact Or.inr ⟨not_lt.mp h1, rfl⟩
    · exact Or.inl rfl
    · exact Or.inl rfl
    · exact Or.inl rfl

/-- Closed instance of C6: a blocked record refuses a message and is left
unchanged. -/
theorem claim6_blocked_refused_witness :
    throttleStep ⟨1, 1, 5, 60⟩ ⟨0, 2, 100⟩ EvClass.message 10 = (⟨0, 2, 100⟩, false) := by
  have h := claim6_blocked_refused ⟨1, 1, 5, 60⟩ ⟨0, 2, 100⟩ EvClass.message 10
    (by norm_num)
  exact h.1 (by norm_num)

/-! ## Volume guard (`FileUploadThrottlingMiddleware`, same file)

The per-user record is the rolling list of `(timestamp, size_mb)` pairs; the
`last_warning` field only rate-limits warning texts and plays no part in
accept/reject decisions. -/

/-- Entries retained after the 1-hour prune `now - ts < 3600`. -/
def volPrune (now : ℚ) (files : List (ℚ × ℚ)) : List (ℚ × ℚ) :=
  files.filter (fun p => now - p.1 < 3600)

/-- One pass of `FileUploadThrottlingMiddleware.__call__` for a message
carrying a file of `file_size_mb` megabytes: prune, count the last minute,
sum the retained sizes, check both caps, and append on acceptance.  Returns
the new rolling list and whether the event was forwarded. -/
def volStep (files_per_minute : ℕ) (total_mb_per_hour : ℚ)
    (files : List (ℚ × ℚ)) (now file_size_mb : ℚ) : List (ℚ × ℚ) × Bool :=
  let kept := volPrune now files
  let files_last_minute := (kept.filter (fun p => now - p.1 < 60)).length
  let total_mb := (kept.map Prod.snd).sum
  if files_last_minute ≥ files_per_minute then (kept, false)
  else if total_mb + file_size_mb > total_mb_per_hour then (kept, false)
  else (kept ++ [(now, file_size_mb)], true)

/-- Number of recorded events younger than 60 seconds, counted over the raw
record. -/
def minuteCount (now : ℚ) (files : List (ℚ × ℚ)) : ℕ :=
  (files.filter (fun p => now - p.1 < 60)).length

/-- Megabytes accumulated inside the 1-hour window, summed over the raw
record; entries outside the window do not contribute. -/
def hourSum (now : ℚ) (files : List (ℚ × ℚ)) : ℚ :=
  ((files.filter (fun p => now - p.1 < 3600)).map Prod.snd).sum

theorem volPrune_filter_minute (now : ℚ) (files : List (ℚ × ℚ)) :
    (volPrune now files).filter (fun p => now - p.1 < 60)
      = files.filter (fun p => now - p.1 < 60) := by
  unfold volPrune
  rw [List.filter_filter]
  apply List.filter_congr
  intro p _
  by_cases h : now - p.1 < 60
  · have h2 : now - p.1 < 3600 := lt_trans h (by norm_num)
    simp [h, h2]
  · simp [h]

/-- **C4**: the guard first discards entries older than one hour; the event
is accepted exactly when the retained count younger than 60 seconds is below
the per-minute cap and the retained sizes plus the new file stay within the
hourly cap; the new pair is appended only on acceptance, and entries outside
the 1-hour window never contribute to the size sum. -/
theorem claim4_volume_guard (fpm : ℕ) (cap : ℚ) (files : List (ℚ × ℚ))
    (now sz : ℚ) :
    ((volStep fpm cap files now sz).2 = true ↔
        minuteCount now files < fpm ∧ hourSum now files + sz ≤ cap) ∧
    (volStep fpm cap files now sz).1 =
      (if (volStep fpm cap files now sz).2
       then volPrune now files ++ [(now, sz)]
       else volPrune now files) := by
  unfold volStep
  simp only [volPrune_filter_minute]
  by_cases h1 : minuteCount now files ≥ fpm
  · have h1b : ((files.filter (fun p => now - p.1 < 60)).length ≥ fpm) := h1
    simp only [minuteCount] at h1b
    rw [if_pos h1b]
    constructor
    · constructor
      · intro h; cases h
      · intro h; omega
    · simp
  · have h1b : ¬ ((files.filter (fun p => now - p.1 < 60)).length ≥ fpm) := h1
    rw [if_neg h1b]
    have hsum : ((volPrune now files).map Prod.snd).sum = hourSum now files := rfl
    by_cases h2 : hourSum now files + sz > cap
    · rw [hsum, if_pos h2]
      constructor
      · constructor
        · intro h; cases h
        · intro h; linarith [h.2]
      · simp
    · rw [hsum, if_neg h2]
      constructor
      · constructor
        · intro _; exact ⟨by omega, not_lt.mp h2⟩
        · intro _; rfl
      · simp

/-! ## Broadcast dispatcher (`send_broadcast_task`, src/admin/routes/broadcasts.py)

Recipients are abstract; `fail r = true` means the send to `r` raises.  The
loop is embedded together with the list of recipients it actually visits. -/

inductive BroadcastStatus where
  | draft
  | sending
  | sent
  | failed
deriving DecidableEq

structure BroadcastJob where
  status : BroadcastStatus
  sent_count : ℕ
  failed_count : ℕ
  total_count : ℕ
deriving DecidableEq

/-- The `for user_id in user_ids` loop: on failure increment `failed`, else
increment `sent`, and always continue with the next recipient.  The third
component records every recipient the loop visited, in order. -/
def sendLoop (fail : α → Bool) (sent failed : ℕ) :
    List α → ℕ × ℕ × List α
  | [] => (sent, failed, [])
  | r :: rs =>
      if fail r then
        let res := sendLoop fail sent (failed + 1) rs
        (res.1, res.2.1, r :: res.2.2)
      else
        let res := sendLoop fail (sent + 1) failed rs
        (res.1, res.2.1, r :: res.2.2)

/-- `send_broadcast_task`: record `total_count` and status `sending` up
front, run the loop from zero counters, then persist the final state with
status `sent`.  Returns (job state persisted at start, final job state,
recipients visited). -/
def send_broadcast_task (user_ids : List α) (fail : α → Bool) :
    BroadcastJob × BroadcastJob × List α :=
  let total := user_ids.length
  let startJob : BroadcastJob :=
    { status := .sending, sent_count := 0, failed_count := 0, total_count := total }
  let res := sendLoop fail 0 0 user_ids
  (startJob,
   { status := .sent, sent_count := res.1, failed_count := res.2.1,
     total_count := total },
   res.2.2)

theorem sendLoop_spec (fail : α → Bool) :
    ∀ (l : List α) (sent failed : ℕ),
      sendLoop fail sent failed l =
        (sent + (l.filter (fun r => !fail r)).length,
         failed + (l.filter (fun r => fail r)).length, l) := by
  intro l
  induction l with
  | nil => intro sent failed; simp [sendLoop]
  | cons r rs ih =>
    intro sent failed
    by_cases h : fail r
    · simp [sendLoop, h, ih, Nat.add_assoc, Nat.add_comm 1]
    · simp [sendLoop, h, ih, Nat.add_assoc, Nat.add_comm 1]

theorem filter_length_split (fail : α → Bool) (l : List α) :
    (l.filter (fun r => !fail r)).length + (l.filter (fun r => fail r)).length
      = l.length := by
  induction l with
  | nil => simp
  | cons r rs ih =>
    by_cases h : fail r
    · simp [h, List.filter_cons]; omega
    · simp [h, List.filter_cons]; omega

/-- **C3**: the dispatch loop visits every one of the `N` recipients; with
exactly `k` failing sends the final persisted job has
`sent_count = N - k`, `failed_count = k` and status `sent`, while the job
state persisted at the start records `total_count = N` and status
`sending`. -/
theorem claim3_broadcast_counts (user_ids : List α) (fail : α → Bool) :
    (send_broadcast_task user_ids fail).2.2 = user_ids ∧
    (send_broadcast_task user_ids fail).1.status = .sending ∧
    (send_broadcast_task user_ids fail).1.total_count = user_ids.length ∧
    (send_broadcast_task user_ids fail).2.1.status = .sent ∧
    (send_broadcast_task user_ids fail).2.1.sent_count
      = user_ids.length - (user_ids.filter (fun r => fail r)).length ∧
    (send_broadcast_task user_ids fail).2.1.failed_count
      = (user_ids.filter (fun r => fail r)).length ∧
    (send_broadcast_task user_ids fail).2.1.total_count = user_ids.length := by
  have hloop := sendLoop_spec fail user_ids 0 0
  have hsplit := filter_length_split fail user_ids
  unfold send_broadcast_task
  rw [hloop]
  refine ⟨rfl, rfl, rfl, rfl, ?_, by simp, rfl⟩
  simp only [Nat.zero_add]
  omega

/-! ## Character and string utilities

Python string methods are modelled on `List Char`.  Case mapping covers the
ASCII and Cyrillic alphabets, the only alphabets admitted by the validators'
character classes. -/

/-- Python whitespace: space, tab, newline, carriage return, vertical tab,
form feed (codes 0x20, 0x09, 0x0A, 0x0D, 0x0B, 0x0C). -/
def isSpaceChar (c : Char) : Bool :=
  c.toNat = 0x20 || c.toNat = 0x9 || c.toNat = 0xA ||
  c.toNat = 0xD || c.toNat = 0xB || c.toNat = 0xC

/-- Uppercase mapping for ASCII `a-z`, Cyrillic `а-я` and `ё`. -/
def upChar (c : Char) : Char :=
  if 0x61 ≤ c.toNat ∧ c.toNat ≤ 0x7A then Char.ofNat (c.toNat - 0x20)
  else if 0x430 ≤ c.toNat ∧ c.toNat ≤ 0x44F then Char.ofNat (c.toNat - 0x20)
  else if c.toNat = 0x451 then Char.ofNat 0x401
  else c

/-- Lowercase mapping for ASCII `A-Z`, Cyrillic `А-Я` and `Ё`. -/
def lowChar (c : Char) : Char :=
  if 0x41 ≤ c.toNat ∧ c.toNat ≤ 0x5A then Char.ofNat (c.toNat + 0x20)
  else if 0x410 ≤ c.toNat ∧ c.toNat ≤ 0x42F then Char.ofNat (c.toNat + 0x20)
  else if c.toNat = 0x401 then Char.ofNat 0x451
  else c

def strLower (s : String) : String := ⟨s.data.map lowChar⟩

/-- Python `s.startswith(p)`. -/
def strStartsWith (s p : String) : Bool := p.data.isPrefixOf s.data

/-- Python `s.endswith(p)`. -/
def strEndsWith (s p : String) : Bool := p.data.isSuffixOf s.data

def isAsciiDigit (c : Char) : Bool := 0x30 ≤ c.toNat && c.toNat ≤ 0x39

def digitVal (c : Char) : ℕ := c.toNat - 0x30

/-- Python `text.split()` (split on runs of whitespace, dropping empties),
written with explicit fuel so that it is structurally recursive. -/
def wordsGo : ℕ → List Char → List (List Char)
  | _, [] => []
  | 0, _ :: _ => []
  | fuel + 1, c :: cs =>
      if isSpaceChar c then wordsGo fuel cs
      else (c :: cs.takeWhile (fun x => !isSpaceChar x))
             :: wordsGo fuel (cs.dropWhile (fun x => !isSpaceChar x))

def words (l : List Char) : List (List Char) := wordsGo l.length l

/-- Python `' '.join(ws)`. -/
def joinWords : List (List Char) → List Char
  | [] => []
  | [w] => w
  | w :: ws => w ++ ' ' :: joinWords ws

/-- Python `' '.join(text.split())`. -/
def collapse (l : List Char) : List Char := joinWords (words l)

/-- Python `text.strip()`. -/
def stripChars (l : List Char) : List Char :=
  ((l.dropWhile isSpaceChar).reverse.dropWhile isSpaceChar).reverse

/-- Python `s.replace(pat, rep)` (leftmost, non-overlapping), with fuel for
structural recursion; all callers use a non-empty pattern. -/
def replaceGo (pat rep : List Char) : ℕ → List Char → List Char
  | _, [] => []
  | 0, s => s
  | fuel + 1, c :: cs =>
      if !pat.isEmpty && pat.isPrefixOf (c :: cs) then
        rep ++ replaceGo pat rep fuel (cs.drop (pat.length - 1))
      else c :: replaceGo pat rep fuel cs

def replaceL (pat rep s : List Char) : List Char := replaceGo pat rep s.length s

/-! ## Validators (src/bot/utils/validation.py) -/

/-- Character class of `^[а-яёА-ЯЁa-zA-Z\s\-]+$`. -/
def isFioChar (c : Char) : Bool :=
  (0x430 ≤ c.toNat && c.toNat ≤ 0x44F) || c.toNat = 0x451 ||
  (0x410 ≤ c.toNat && c.toNat ≤ 0x42F) || c.toNat = 0x401 ||
  (0x61 ≤ c.toNat && c.toNat ≤ 0x7A) || (0x41 ≤ c.toNat && c.toNat ≤ 0x5A) ||
  isSpaceChar c || c.toNat = 0x2D

/-- Character class of `^[а-яёА-ЯЁa-zA-Z\s\-\.0-9]+$`. -/
def isCityChar (c : Char) : Bool := isFioChar c || c.toNat = 0x2E || isAsciiDigit c

/-- Python `word.capitalize()`. -/
def capitalizeWord : List Char → List Char
  | [] => []
  | c :: cs => upChar c :: cs.map lowChar

/-- City normalization: capitalize unless the word starts with a digit. -/
def capCityWord (w : List Char) : List Char :=
  match w with
  | [] => []
  | c :: _ => if isAsciiDigit c then w else capitalizeWord w

def validate_fio (text : String) : Bool × String × Option String :=
  if (stripChars text.data).length < 5 then
    (false, "❌ ФИО слишком короткое. Введите полностью (например: Иванов Иван Иванович).", none)
  else
    let t := collapse text.data
    let ws := words t
    if ws.length < 2 then
      (false, "❌ Введите минимум фамилию и имя (например: Иванов Иван).", none)
    else if !(!t.isEmpty && t.all isFioChar) then
      (false, "❌ ФИО должно содержать только буквы. Без цифр и спецсимволов.", none)
    else
      let normalized : String := ⟨joinWords (ws.map capitalizeWord)⟩
      (true, normalized, some normalized)

def validate_city (text : String) : Bool × String × Option String :=
  if (stripChars text.data).length < 2 then
    (false, "❌ Название населённого пункта слишком короткое.", none)
  else
    let t := collapse text.data
    if !(!t.isEmpty && t.all isCityChar) then
      (false, "❌ Некорректное название. Используйте только буквы.", none)
    else
      let normalized : String := ⟨joinWords ((words t).map capCityWord)⟩
      (true, normalized, some normalized)

def validate_school (text : String) : Bool × String × Option String :=
  if (stripChars text.data).length < 3 then
    (false, "❌ Название учебного заведения слишком короткое.", none)
  else
    let t1 := collapse text.data
    let t2 := replaceL ['№'] ['№', ' '] t1
    let t3 := replaceL [' ', ' '] [' '] t2
    (true, ⟨t3⟩, some ⟨t3⟩)

/-- Letter class `[А-ЯЁA-Z]` of the grade regex. -/
def gradeLetterOk (c : Char) : Bool :=
  (0x410 ≤ c.toNat && c.toNat ≤ 0x42F) || c.toNat = 0x401 ||
  (0x41 ≤ c.toNat && c.toNat ≤ 0x5A)

/-- The numeric part `(\d{1,2})` of the grade regex: one or two leading
digits, greedily. -/
def gradeNum : List Char → Option (ℕ × List Char)
  | [] => none
  | [d1] => if isAsciiDigit d1 then some (digitVal d1, []) else none
  | d1 :: d2 :: r2 =>
    if isAsciiDigit d1 then
      (if isAsciiDigit d2 then some (digitVal d1 * 10 + digitVal d2, r2)
       else some (digitVal d1, d2 :: r2))
    else none

/-- The remainder `\s*([А-ЯЁA-Z])?$` of the grade regex. -/
def gradeTail (rest : List Char) : Option (Option Char) :=
  match rest.dropWhile isSpaceChar with
  | [] => some none
  | [c] => if gradeLetterOk c then some (some c) else none
  | _ :: _ :: _ => none

/-- The grade regex `^(\d{1,2})\s*([А-ЯЁA-Z])?$` as a committed parser (the
greedy match never needs to backtrack here: if two digits are consumed and
the remainder fails, the one-digit alternative places a digit where a letter
or end is required). -/
def parseGrade (l : List Char) : Option (ℕ × Option Char) :=
  match gradeNum l with
  | none => none
  | some p =>
    match gradeTail p.2 with
    | none => none
    | some lo => some (p.1, lo)

/-- The optional letter suffix of the normalized grade `f"{num}{letter or \'\'}"`. -/
def gradeSuffix : Option Char → List Char
  | some c => [c]
  | none => []

def validate_grade (text : String) : Bool × String × Option String :=
  if text = "" then (false, "❌ Укажите класс.", none)
  else
    let t := (stripChars text.data).map upChar
    match parseGrade t with
    | none => (false, "❌ Укажите класс числом от 1 до 11 (например: 9 или 10А).", none)
    | some p =>
      if p.1 < 1 || p.1 > 11 then (false, "❌ Класс должен быть от 1 до 11.", none)
      else
        let normalized : String := ⟨Nat.toDigits 10 p.1 ++ gradeSuffix p.2⟩
        (true, normalized, some normalized)

/-! ## Conversation state machine (src/bot/handlers/application.py)

The model covers the `ApplicationForm` router: per-state handlers in their
registration order.  Texts consumed by earlier-registered routers (slash
commands, the main-menu and new-application buttons) never reach these
handlers and are outside the event type.  Replies are abstract tags. -/

def MAX_FILES : ℕ := 5
def MIN_FILES : ℕ := 3
def MAX_VOICE_DURATION : ℕ := 60

def cancelText : String := "❌ Отмена"

inductive FormState where
  | idle
  | entering_fio
  | entering_city
  | entering_school
  | entering_grade
  | choosing_stage
  | uploading_photos
  | entering_comment
deriving DecidableEq

structure FileEntry where
  file_id : String
  file_unique_id : String
  ftype : String
  extension : String
  file_name : Option String := none
deriving DecidableEq

structure Session where
  state : FormState
  full_name : Option String := none
  city : Option String := none
  school : Option String := none
  grade : Option String := none
  stage_id : Option ℕ := none
  stage_name : Option String := none
  files : List FileEntry := []
  comment_text : Option String := none
  voice_file_id : Option String := none
deriving DecidableEq

/-- `state.clear()`: back to no state with empty data. -/
def clearSession : Session := { state := .idle }

structure Stage where
  id : ℕ
  name : String
  start_date : Option ℚ := none
  deadline : Option ℚ := none
deriving DecidableEq

structure Env where
  now : ℚ
  getStage : ℕ → Option Stage
  available_stages : List Stage
  max_file_size_bytes : ℕ

inductive Event where
  | photo (file_id file_unique_id : String) (file_size : Option ℕ)
  | document (file_id file_unique_id : String) (file_name : String) (file_size : ℕ)
  | textMsg (t : String)
  | voice (file_id : String) (duration : ℕ)
  | stageChoice (stage_id : ℕ)
  | cancelCallback
  | changeProfile
  | otherMsg
deriving DecidableEq

inductive Msg where
  | get_fio
  | get_city
  | get_school
  | get_grade
  | get_stage
  | no_stages
  | validation_error (m : String)
  | stage_not_found
  | stage_not_started
  | stage_timeout
  | stage_chosen
  | get_photos
  | get_comment
  | file_status (got : ℕ)
  | already_max_files
  | error_photo_count
  | error_file_too_large
  | error_wrong_format
  | error_not_photo
  | error_voice_length
  | finish_saved
  | canceled
deriving DecidableEq

/-- The durable record written by `crud.create_application` at finish. -/
structure Submission where
  stage_id : Option ℕ
  files : List FileEntry
  comment_text : Option String
  voice_file_id : Option String
deriving DecidableEq

/-- One handler's outcome: updated session, replies, persisted record. -/
abbrev StepResult := Session × List Msg × Option Submission

/-- `finish_application`: persist the submission, clear the session. -/
def finish_application (s : Session) : StepResult :=
  (clearSession, [.finish_saved],
   some { stage_id := s.stage_id, files := s.files,
          comment_text := s.comment_text, voice_file_id := s.voice_file_id })

def process_fio (s : Session) (t : String) : StepResult :=
  if t = cancelText then (clearSession, [.canceled], none)
  else
    let r := validate_fio t
    if r.1 = false then (s, [.validation_error r.2.1], none)
    else ({ s with full_name := r.2.2, state := .entering_city }, [.get_city], none)

def process_city (s : Session) (t : String) : StepResult :=
  if t = cancelText then (clearSession, [.canceled], none)
  else
    let r := validate_city t
    if r.1 = false then (s, [.validation_error r.2.1], none)
    else ({ s with city := r.2.2, state := .entering_school }, [.get_school], none)

def process_school (s : Session) (t : String) : StepResult :=
  if t = cancelText then (clearSession, [.canceled], none)
  else
    let r := validate_school t
    if r.1 = false then (s, [.validation_error r.2.1], none)
    else ({ s with school := r.2.2, state := .entering_grade }, [.get_grade], none)

def process_grade (env : Env) (s : Session) (t : String) : StepResult :=
  if t = cancelText then (clearSession, [.canceled], none)
  else
    let r := validate_grade t
    if r.1 = false then (s, [.validation_error r.2.1], none)
    else if env.available_stages.isEmpty then (clearSession, [.no_stages], none)
    else ({ s with grade := r.2.2, state := .choosing_stage }, [.get_stage], none)

/-- `stage.start_date and now < stage.start_date`. -/
def stageNotStarted (env : Env) (stage : Stage) : Bool :=
  match stage.start_date with
  | some d => decide (env.now < d)
  | none => false

/-- `stage.deadline and now > stage.deadline`. -/
def stageExpired (env : Env) (stage : Stage) : Bool :=
  match stage.deadline with
  | some d => decide (env.now > d)
  | none => false

def process_stage_choice (env : Env) (s : Session) (sid : ℕ) : StepResult :=
  match env.getStage sid with
  | none => (s, [.stage_not_found], none)
  | some stage =>
    if stageNotStarted env stage then (s, [.stage_not_started], none)
    else if stageExpired env stage then (s, [.stage_timeout], none)
    else
      ({ s with stage_id := some stage.id, stage_name := some stage.name,
                files := [], state := .uploading_photos },
       [.stage_chosen, .get_photos], none)

/-- `_send_file_status`: report progress and, once `MIN_FILES` is reached,
advance to comment collection. -/
def sendFileStatus (s : Session) (files : List FileEntry) : Session × List Msg :=
  if files.length ≥ MIN_FILES then
    ({ s with files := files, state := .entering_comment },
     [.file_status files.length, .get_comment])
  else
    ({ s with files := files }, [.file_status files.length])

def photoEntry (fid uid : String) : FileEntry :=
  { file_id := fid, file_unique_id := uid, ftype := "photo", extension := ".jpg" }

def process_photo (env : Env) (s : Session) (fid uid : String) (sz : Option ℕ) :
    StepResult :=
  if s.files.length ≥ MAX_FILES then (s, [.error_photo_count], none)
  else if (match sz with
           | some n => !decide (n = 0) && decide (env.max_file_size_bytes < n)
           | none => false) then
    (s, [.error_file_too_large], none)
  else
    let files := s.files ++ [photoEntry fid uid]
    let r := sendFileStatus s files
    (r.1, r.2, none)

def imageExts : List String := [".jpg", ".jpeg", ".png", ".gif", ".bmp", ".webp"]

/-- Substring after the last dot (`rsplit('.', 1)[-1]`). -/
def afterLastDot (s : String) : String :=
  ⟨(s.data.reverse.takeWhile (fun c => c ≠ '.')).reverse⟩

/-- The accepted-format test of the document handlers. -/
def docIsPdf (name : String) : Bool := strEndsWith (strLower name) ".pdf"

def docIsImage (name : String) : Bool :=
  imageExts.any (fun e => strEndsWith (strLower name) e)

/-- The `FileEntry` built for an accepted document. -/
def documentEntry (fid uid name : String) : FileEntry :=
  if docIsPdf name then
    { file_id := fid, file_unique_id := uid, ftype := "document",
      extension := ".pdf", file_name := some name }
  else
    { file_id := fid, file_unique_id := uid, ftype := "photo",
      extension := (if (strLower name).data.contains '.'
                    then "." ++ afterLastDot (strLower name) else ".jpg"),
      file_name := some name }

def process_document (env : Env) (s : Session) (fid uid name : String) (sz : ℕ) :
    StepResult :=
  if s.files.length ≥ MAX_FILES then (s, [.error_photo_count], none)
  else if !docIsPdf name && !docIsImage name then (s, [.error_wrong_format], none)
  else if decide (env.max_file_size_bytes < sz) then (s, [.error_file_too_large], none)
  else
    let files := s.files ++ [documentEntry fid uid name]
    let r := sendFileStatus s files
    (r.1, r.2, none)

def process_voice_comment (s : Session) (fid : String) (dur : ℕ) : StepResult :=
  if dur > MAX_VOICE_DURATION then (s, [.error_voice_length], none)
  else finish_application { s with voice_file_id := some fid, comment_text := none }

def process_text_comment (s : Session) (t : String) : StepResult :=
  if t = cancelText then (clearSession, [.canceled], none)
  else finish_application { s with comment_text := some t, voice_file_id := none }

/-- The catch-all handler of `uploading_photos`; the cancel text is routed to
the cancel handler before it and never reaches here. -/
def process_invalid_file (s : Session) (e : Event) : StepResult :=
  if s.files.length ≥ MIN_FILES then
    let s1 : Session := { s with state := .entering_comment }
    match e with
    | .voice fid dur => process_voice_comment s1 fid dur
    | .textMsg t =>
        if !(t = "") && !(t = cancelText) then process_text_comment s1 t
        else if t = cancelText then (clearSession, [.canceled], none)
        else (s1, [], none)
    | _ => (s1, [], none)
  else (s, [.error_not_photo], none)

def process_extra_photo (s : Session) (fid uid : String) : StepResult :=
  if s.files.length ≥ MAX_FILES then (s, [.already_max_files], none)
  else
    let files := s.files ++ [photoEntry fid uid]
    ({ s with files := files }, [.file_status files.length], none)

def process_extra_document (env : Env) (s : Session) (fid uid name : String)
    (sz : ℕ) : StepResult :=
  if s.files.length ≥ MAX_FILES then (s, [.already_max_files], none)
  else if !docIsPdf name && !docIsImage name then (s, [.error_wrong_format], none)
  else if decide (env.max_file_size_bytes < sz) then (s, [.error_file_too_large], none)
  else
    let files := s.files ++ [documentEntry fid uid name]
    ({ s with files := files }, [.file_status files.length], none)

/-- One inbound event routed by the user's current state, mirroring the
handler registration order of the application router. -/
def appStep (env : Env) (s : Session) (e : Event) : StepResult :=
  match s.state with
  | .idle => (s, [], none)
  | .entering_fio =>
    match e with
    | .textMsg t => process_fio s t
    | _ => (s, [], none)
  | .entering_city =>
    match e with
    | .textMsg t => process_city s t
    | _ => (s, [], none)
  | .entering_school =>
    match e with
    | .textMsg t => process_school s t
    | _ => (s, [], none)
  | .entering_grade =>
    match e with
    | .textMsg t => process_grade env s t
    | _ => (s, [], none)
  | .choosing_stage =>
    match e with
    | .stageChoice sid => process_stage_choice env s sid
    | .cancelCallback => (clearSession, [.canceled], none)
    | .changeProfile => ({ s with state := .entering_fio }, [.get_fio], none)
    | .textMsg t =>
        if t = cancelText then (clearSession, [.canceled], none) else (s, [], none)
    | _ => (s, [], none)
  | .uploading_photos =>
    match e with
    | .photo fid uid sz => process_photo env s fid uid sz
    | .document fid uid name sz => process_document env s fid uid name sz
    | .textMsg t =>
        if t = cancelText then (clearSession, [.canceled], none)
        else process_invalid_file s (.textMsg t)
    | .voice fid dur => process_invalid_file s (.voice fid dur)
    | .otherMsg => process_invalid_file s .otherMsg
    | _ => (s, [], none)
  | .entering_comment =>
    match e with
    | .voice fid dur => process_voice_comment s fid dur
    | .textMsg t => process_text_comment s t
    | .photo fid uid _ => process_extra_photo s fid uid
    | .document fid uid name sz => process_extra_document env s fid uid name sz
    | _ => (s, [], none)

/-- Iterated steps (sessions evolve one accepted event at a time). -/
def runApp (env : Env) (s : Session) (es : List Event) : Session :=
  es.foldl (fun st e => (appStep env st e).1) s

def IsAttachment : Event → Bool
  | .photo _ _ _ => true
  | .document _ _ _ _ => true
  | _ => false

/-- The invariant of C2: the attachment list never exceeds `MAX_FILES`, and a
session that has advanced past file collection holds at least `MIN_FILES`. -/
def sessionInv (s : Session) : Prop :=
  s.files.length ≤ MAX_FILES ∧ (s.state = .entering_comment → MIN_FILES ≤ s.files.length)

instance (s : Session) : Decidable (sessionInv s) :=
  inferInstanceAs (Decidable (_ ∧ _))

theorem inv_clearSession : sessionInv clearSession := by
  constructor
  · decide
  · intro h; exact absurd h (by decide)

theorem inv_finish_application (s : Session) : sessionInv (finish_application s).1 :=
  inv_clearSession

theorem inv_process_fio (s : Session) (t : String) (h : sessionInv s) :
    sessionInv (process_fio s t).1 := by
  unfold process_fio
  dsimp only
  split_ifs
  · exact inv_clearSession
  · exact h
  · exact ⟨h.1, fun hc => FormState.noConfusion hc⟩

theorem inv_process_city (s : Session) (t : String) (h : sessionInv s) :
    sessionInv (process_city s t).1 := by
  unfold process_city
  dsimp only
  split_ifs
  · exact inv_clearSession
  · exact h
  · exact ⟨h.1, fun hc => FormState.noConfusion hc⟩

theorem inv_process_school (s : Session) (t : String) (h : sessionInv s) :
    sessionInv (process_school s t).1 := by
  unfold process_school
  dsimp only
  split_ifs
  · exact inv_clearSession
  · exact h
  · exact ⟨h.1, fun hc => FormState.noConfusion hc⟩

theorem inv_process_grade (env : Env) (s : Session) (t : String) (h : sessionInv s) :
    sessionInv (process_grade env s t).1 := by
  unfold process_grade
  dsimp only
  split_ifs
  · exact inv_clearSession
  · exact h
  · exact inv_clearSession
  · exact ⟨h.1, fun hc => FormState.noConfusion hc⟩

theorem inv_process_stage_choice (env : Env) (s : Session) (sid : ℕ)
    (h : sessionInv s) : sessionInv (process_stage_choice env s sid).1 := by
  unfold process_stage_choice
  cases env.getStage sid with
  | none => exact h
  | some stage =>
    dsimp only
    split_ifs
    · exact h
    · exact h
    · exact ⟨Nat.zero_le _, fun hc => FormState.noConfusion hc⟩

theorem inv_sendFileStatus (s : Session) (files : List FileEntry)
    (hlen : files.length ≤ MAX_FILES)
    (hstate : s.state = .entering_comment → MIN_FILES ≤ files.length) :
    sessionInv (sendFileStatus s files).1 := by
  unfold sendFileStatus
  split_ifs with hmin
  · exact ⟨hlen, fun _ => hmin⟩
  · exact ⟨hlen, hstate⟩

theorem inv_process_photo (env : Env) (s : Session) (fid uid : String)
    (sz : Option ℕ) (h : sessionInv s) :
    sessionInv (process_photo env s fid uid sz).1 := by
  unfold process_photo
  dsimp only
  split_ifs with h1 h2
  · exact h
  · exact h
  · refine inv_sendFileStatus s _ ?_ ?_
    · simp only [List.length_append, List.length_cons, List.length_nil]
      omega
    · intro hc
      have := h.2 hc
      simp only [List.length_append, List.length_cons, List.length_nil]
      omega

theorem inv_process_document (env : Env) (s : Session) (fid uid name : String)
    (sz : ℕ) (h : sessionInv s) :
    sessionInv (process_document env s fid uid name sz).1 := by
  unfold process_document
  dsimp only
  split_ifs with h1 h2 h3
  · exact h
  · exact h
  · exact h
  · refine inv_sendFileStatus s _ ?_ ?_
    · simp only [List.length_append, List.length_cons, List.length_nil]
      omega
    · intro hc
      have := h.2 hc
      simp only [List.length_append, List.length_cons, List.length_nil]
      omega

theorem inv_process_voice_comment (s : Session) (fid : String) (dur : ℕ)
    (h : sessionInv s) : sessionInv (process_voice_comment s fid dur).1 := by
  unfold process_voice_comment
  split_ifs
  · exact h
  · exact inv_clearSession

theorem inv_process_text_comment (s : Session) (t : String) (h : sessionInv s) :
    sessionInv (process_text_comment s t).1 := by
  unfold process_text_comment
  split_ifs
  · exact inv_clearSession
  · exact inv_clearSession

theorem inv_process_invalid_file (s : Session) (e : Event) (h : sessionInv s) :
    sessionInv (process_invalid_file s e).1 := by
  unfold process_invalid_file
  dsimp only
  split_ifs with hmin
  · have hs1 : sessionInv { s with state := FormState.entering_comment } :=
      ⟨h.1, fun _ => hmin⟩
    cases e with
    | voice fid dur => exact inv_process_voice_comment _ fid dur hs1
    | textMsg t =>
      dsimp only
      split_ifs
      · exact inv_process_text_comment _ t hs1
      · exact inv_clearSession
      · exact hs1
    | photo _ _ _ => exact hs1
    | document _ _ _ _ => exact hs1
    | stageChoice _ => exact hs1
    | cancelCallback => exact hs1
    | changeProfile => exact hs1
    | otherMsg => exact hs1
  · exact h

theorem inv_process_extra_photo (s : Session) (fid uid : String) (h : sessionInv s) :
    sessionInv (process_extra_photo s fid uid).1 := by
  unfold process_extra_photo
  dsimp only
  split_ifs with h1
  · exact h
  · constructor
    · simp only [List.length_append, List.length_cons, List.length_nil]
      omega
    · intro hc
      have := h.2 hc
      simp only [List.length_append, List.length_cons, List.length_nil]
      omega

theorem inv_process_extra_document (env : Env) (s : Session) (fid uid name : String)
    (sz : ℕ) (h : sessionInv s) :
    sessionInv (process_extra_document env s fid uid name sz).1 := by
  unfold process_extra_document
  dsimp only
  split_ifs with h1 h2 h3
  · exact h
  · exact h
  · exact h
  · constructor
    · simp only [List.length_append, List.length_cons, List.length_nil]
      omega
    · intro hc
      have := h.2 hc
      simp only [List.length_append, List.length_cons, List.length_nil]
      omega

theorem inv_appStep (env : Env) (s : Session) (e : Event) (h : sessionInv s) :
    sessionInv (appStep env s e).1 := by
  obtain ⟨st, fn, ci, sc, gr, sid, sn, fl, ct, vf⟩ := s
  cases st with
  | idle => cases e <;> exact h
  | entering_fio =>
    cases e <;> first
      | exact h
      | exact inv_process_fio _ _ h
  | entering_city =>
    cases e <;> first
      | exact h
      | exact inv_process_city _ _ h
  | entering_school =>
    cases e <;> first
      | exact h
      | exact inv_process_school _ _ h
  | entering_grade =>
    cases e <;> first
      | exact h
      | exact inv_process_grade env _ _ h
  | choosing_stage =>
    cases e with
    | stageChoice sid2 => exact inv_process_stage_choice env _ sid2 h
    | cancelCallback => exact inv_clearSession
    | changeProfile => exact ⟨h.1, fun hc => FormState.noConfusion hc⟩
    | textMsg t =>
      simp only [appStep]
      split_ifs
      · exact inv_clearSession
      · exact h
    | _ => exact h
  | uploading_photos =>
    cases e with
    | photo fid uid sz => exact inv_process_photo env _ fid uid sz h
    | document fid uid name sz => exact inv_process_document env _ fid uid name sz h
    | textMsg t =>
      simp only [appStep]
      split_ifs
      · exact inv_clearSession
      · exact inv_process_invalid_file _ _ h
    | voice fid dur => exact inv_process_invalid_file _ _ h
    | otherMsg => exact inv_process_invalid_file _ _ h
    | _ => exact h
  | entering_comment =>
    cases e with
    | voice fid dur => exact inv_process_voice_comment _ fid dur h
    | textMsg t => exact inv_process_text_comment _ t h
    | photo fid uid sz => exact inv_process_extra_photo _ fid uid h
    | document fid uid name sz => exact inv_process_extra_document env _ fid uid name sz h
    | _ => exact h

theorem runApp_inv (env : Env) (es : List Event) :
    ∀ s : Session, sessionInv s → sessionInv (runApp env s es) := by
  induction es with
  | nil => intro s h; exact h
  | cons e es ih =>
    intro s h
    exact ih (appStep env s e).1 (inv_appStep env s e h)

/-- **C2**: along any event sequence the attachment count stays within
`[0, MAX_FILES]` and a session past file collection holds at least
`MIN_FILES`; moreover an attachment arriving at a full list — in either the
file-collection or the comment-collection state — is rejected with the
count-exceeded reply, changes nothing and persists nothing. -/
theorem claim2_files_invariant (env : Env) (s : Session) (es : List Event)
    (hinv : sessionInv s) :
    sessionInv (runApp env s es) ∧
    (∀ e, IsAttachment e = true → s.files.length = MAX_FILES →
      (s.state = .uploading_photos ∨ s.state = .entering_comment) →
      (appStep env s e).1 = s ∧ (appStep env s e).2.2 = none ∧
      ((appStep env s e).2.1 = [Msg.error_photo_count] ∨
       (appStep env s e).2.1 = [Msg.already_max_files])) := by
  refine ⟨runApp_inv env es s hinv, ?_⟩
  intro e hatt hfull hstate
  obtain ⟨st, fn, ci, sc, gr, sid, sn, fl, ct, vf⟩ := s
  have hge : fl.length ≥ MAX_FILES := le_of_eq hfull.symm
  rcases hstate with hs | hs <;> cases hs <;> cases e <;> try exact Bool.noConfusion hatt
  · exact ⟨by simp [appStep, process_photo, if_pos hge],
      by simp [appStep, process_photo, if_pos hge],
      Or.inl (by simp [appStep, process_photo, if_pos hge])⟩
  · exact ⟨by simp [appStep, process_document, if_pos hge],
      by simp [appStep, process_document, if_pos hge],
      Or.inl (by simp [appStep, process_document, if_pos hge])⟩
  · exact ⟨by simp [appStep, process_extra_photo, if_pos hge],
      by simp [appStep, process_extra_photo, if_pos hge],
      Or.inr (by simp [appStep, process_extra_photo, if_pos hge])⟩
  · exact ⟨by simp [appStep, process_extra_document, if_pos hge],
      by simp [appStep, process_extra_document, if_pos hge],
      Or.inr (by simp [appStep, process_extra_document, if_pos hge])⟩

/-- A benign environment and a comment-stage session with three photos. -/
def sampleEnv : Env :=
  { now := 0, getStage := fun _ => none, available_stages := [],
    max_file_size_bytes := 20971520 }

def sampleSession3 : Session :=
  { state := .entering_comment,
    files := [photoEntry "f1" "u1", photoEntry "f2" "u2", photoEntry "f3" "u3"] }

def sampleSession5 : Session :=
  { state := .entering_comment,
    files := [photoEntry "f1" "u1", photoEntry "f2" "u2", photoEntry "f3" "u3",
              photoEntry "f4" "u4", photoEntry "f5" "u5"] }

/-- Closed instance of C2: a fourth photo keeps the invariant, and a photo
against a full list of five is rejected unchanged. -/
theorem claim2_files_invariant_witness :
    sessionInv (runApp sampleEnv sampleSession3 [Event.photo "p4" "u4" none]) ∧
    (appStep sampleEnv sampleSession5 (Event.photo "p6" "u6" none)).1 = sampleSession5 :=
  ⟨(claim2_files_invariant sampleEnv sampleSession3 [Event.photo "p4" "u4" none]
      (by decide)).1,
   ((claim2_files_invariant sampleEnv sampleSession5 [] (by decide)).2
      (Event.photo "p6" "u6" none) (by decide) (by decide) (Or.inr rfl)).1⟩

/-- Routing facts for the comment-collection state. -/
theorem appStep_comment_photo (env : Env) (s : Session) (fid uid : String)
    (sz : Option ℕ) (hs : s.state = .entering_comment) :
    appStep env s (.photo fid uid sz) = process_extra_photo s fid uid := by
  obtain ⟨st, fn, ci, sc, gr, sid0, sn, fl, ct, vf⟩ := s
  change st = FormState.entering_comment at hs
  subst hs
  rfl

theorem appStep_comment_voice (env : Env) (s : Session) (fid : String) (dur : ℕ)
    (hs : s.state = .entering_comment) :
    appStep env s (.voice fid dur) = process_voice_comment s fid dur := by
  obtain ⟨st, fn, ci, sc, gr, sid0, sn, fl, ct, vf⟩ := s
  change st = FormState.entering_comment at hs
  subst hs
  rfl

theorem appStep_comment_text (env : Env) (s : Session) (t : String)
    (hs : s.state = .entering_comment) :
    appStep env s (.textMsg t) = process_text_comment s t := by
  obtain ⟨st, fn, ci, sc, gr, sid0, sn, fl, ct, vf⟩ := s
  change st = FormState.entering_comment at hs
  subst hs
  rfl

/-- Routing facts for the file-collection state. -/
theorem appStep_uploading_text (env : Env) (s : Session) (t : String)
    (hs : s.state = .uploading_photos) (ht : t ≠ cancelText) :
    appStep env s (.textMsg t) = process_invalid_file s (.textMsg t) := by
  obtain ⟨st, fn, ci, sc, gr, sid0, sn, fl, ct, vf⟩ := s
  change st = FormState.uploading_photos at hs
  subst hs
  show (if t = cancelText then _ else process_invalid_file _ (.textMsg t)) = _
  rw [if_neg ht]

theorem appStep_uploading_voice (env : Env) (s : Session) (fid : String) (dur : ℕ)
    (hs : s.state = .uploading_photos) :
    appStep env s (.voice fid dur) = process_invalid_file s (.voice fid dur) := by
  obtain ⟨st, fn, ci, sc, gr, sid0, sn, fl, ct, vf⟩ := s
  change st = FormState.uploading_photos at hs
  subst hs
  rfl

theorem process_invalid_file_need_more (s : Session) (e : Event)
    (hlt : s.files.length < MIN_FILES) :
    process_invalid_file s e = (s, [.error_not_photo], none) := by
  unfold process_invalid_file
  rw [if_neg (by omega)]

theorem process_invalid_file_voice (s : Session) (fid : String) (dur : ℕ)
    (hmin : MIN_FILES ≤ s.files.length) :
    process_invalid_file s (.voice fid dur) =
      process_voice_comment { s with state := .entering_comment } fid dur := by
  unfold process_invalid_file
  rw [if_pos hmin]

theorem process_invalid_file_text (s : Session) (t : String)
    (hmin : MIN_FILES ≤ s.files.length) (ht : t ≠ cancelText) (hne : t ≠ "") :
    process_invalid_file s (.textMsg t) =
      process_text_comment { s with state := .entering_comment } t := by
  unfold process_invalid_file
  rw [if_pos hmin]
  dsimp only
  rw [if_pos (by simp [ht, hne])]

theorem process_voice_comment_ok (s : Session) (fid : String) (dur : ℕ)
    (hdur : dur ≤ MAX_VOICE_DURATION) :
    process_voice_comment s fid dur =
      finish_application { s with voice_file_id := some fid, comment_text := none } := by
  unfold process_voice_comment
  rw [if_neg (by omega)]

theorem process_voice_comment_long (s : Session) (fid : String) (dur : ℕ)
    (hdur : MAX_VOICE_DURATION < dur) :
    process_voice_comment s fid dur = (s, [.error_voice_length], none) := by
  unfold process_voice_comment
  rw [if_pos hdur]

theorem process_text_comment_go (s : Session) (t : String) (ht : t ≠ cancelText) :
    process_text_comment s t =
      finish_application { s with comment_text := some t, voice_file_id := none } := by
  unfold process_text_comment
  rw [if_neg ht]

/-- **C8**: stage selection rejects a missing stage with "not found", a stage
whose start date lies ahead with "not yet open", and a stage whose deadline
has passed with "expired" — each time returning the session unchanged (still
selecting a stage); only inside the window is the stage stored, the file
list initialised and the session advanced to file collection.  The start
check precedes the deadline check, as in the handler. -/
theorem claim8_stage_selection (env : Env) (s : Session) (sid : ℕ)
    (hs : s.state = .choosing_stage) :
    (env.getStage sid = none →
        appStep env s (.stageChoice sid) = (s, [.stage_not_found], none)) ∧
    ∀ stage, env.getStage sid = some stage →
      (stageNotStarted env stage = true →
          appStep env s (.stageChoice sid) = (s, [.stage_not_started], none)) ∧
      (stageNotStarted env stage = false → stageExpired env stage = true →
          appStep env s (.stageChoice sid) = (s, [.stage_timeout], none)) ∧
      (stageNotStarted env stage = false → stageExpired env stage = false →
          appStep env s (.stageChoice sid) =
            ({ s with stage_id := some stage.id, stage_name := some stage.name,
                      files := [], state := .uploading_photos },
             [.stage_chosen, .get_photos], none)) := by
  obtain ⟨st, fn, ci, sc, gr, sid0, sn, fl, ct, vf⟩ := s
  change st = FormState.choosing_stage at hs
  subst hs
  constructor
  · intro hn
    simp [appStep, process_stage_choice, hn]
  · intro stage hsome
    refine ⟨?_, ?_, ?_⟩
    · intro h1
      simp [appStep, process_stage_choice, hsome, h1]
    · intro h1 h2
      simp [appStep, process_stage_choice, hsome, h1, h2]
    · intro h1 h2
      simp [appStep, process_stage_choice, hsome, h1, h2]

/-- An environment with one stage, open from 10 to 20, queried at time 30. -/
def stagedEnv : Env :=
  { now := 30,
    getStage := fun i =>
      if i = 1 then
        some { id := 1, name := "Этап 1", start_date := some 10, deadline := some 20 }
      else none,
    available_stages := [], max_file_size_bytes := 20971520 }

def choosingSession : Session := { state := .choosing_stage }

/-- Closed instance of C8: selecting the expired stage is rejected with the
expiry message and the session is unchanged. -/
theorem claim8_stage_selection_witness :
    appStep stagedEnv choosingSession (.stageChoice 1)
      = (choosingSession, [Msg.stage_timeout], none) :=
  ((claim8_stage_selection stagedEnv choosingSession 1 rfl).2
     { id := 1, name := "Этап 1", start_date := some 10, deadline := some 20 }
     (by decide)).2.1 (by decide) (by decide)

/-- **C5 is false on the code**: in the comment-collection state an extra
photo is appended without any size check.  Here a photo of 999999999 bytes —
far above the 20 MB ceiling — is accepted and appended as a fourth file. -/
theorem claim5_counterexample :
    sampleEnv.max_file_size_bytes < 999999999 ∧
    (appStep sampleEnv sampleSession3 (.photo "p" "u" (some 999999999))).1.files.length = 4 ∧
    (appStep sampleEnv sampleSession3 (.photo "p" "u" (some 999999999))).2.1
      = [Msg.file_status 4] := by
  refine ⟨by decide, ?_, ?_⟩ <;> decide

/-- **C5 (amended)**: the per-file ceiling is enforced for photos and
documents in the file-collection state and for documents in the
comment-collection state; an extra photo in the comment-collection state,
however, is appended without any size check. -/
theorem claim5_size_ceiling (env : Env) (s : Session) :
    (∀ fid uid n, s.state = .uploading_photos → s.files.length < MAX_FILES →
        env.max_file_size_bytes < n →
        appStep env s (.photo fid uid (some n)) = (s, [.error_file_too_large], none)) ∧
    (∀ fid uid name sz, s.state = .uploading_photos → s.files.length < MAX_FILES →
        (docIsPdf name || docIsImage name) = true → env.max_file_size_bytes < sz →
        appStep env s (.document fid uid name sz) = (s, [.error_file_too_large], none)) ∧
    (∀ fid uid name sz, s.state = .entering_comment → s.files.length < MAX_FILES →
        (docIsPdf name || docIsImage name) = true → env.max_file_size_bytes < sz →
        appStep env s (.document fid uid name sz) = (s, [.error_file_too_large], none)) ∧
    (∀ fid uid n, s.state = .entering_comment → s.files.length < MAX_FILES →
        (appStep env s (.photo fid uid (some n))).1.files
          = s.files ++ [photoEntry fid uid]) := by
  refine ⟨?_, ?_, ?_, ?_⟩
  · intro fid uid n hs hlt hn
    obtain ⟨st, fn, ci, sc, gr, sid0, sn, fl, ct, vf⟩ := s
    change st = FormState.uploading_photos at hs
    subst hs
    simp only at hlt
    have hsz : (!decide (n = 0) && decide (env.max_file_size_bytes < n)) = true := by
      simp only [Bool.and_eq_true, Bool.not_eq_true', decide_eq_false_iff_not,
        decide_eq_true_eq]
      exact ⟨by omega, hn⟩
    simp [appStep, process_photo, hsz]
    omega
  · intro fid uid name sz hs hlt hfmt hsz
    obtain ⟨st, fn, ci, sc, gr, sid0, sn, fl, ct, vf⟩ := s
    change st = FormState.uploading_photos at hs
    subst hs
    simp only at hlt
    have hf : (!docIsPdf name && !docIsImage name) = false := by
      simp only [Bool.or_eq_true] at hfmt
      simp only [Bool.and_eq_false_iff, Bool.not_eq_true']
      rcases hfmt with h | h
      · exact Or.inl (by simp [h])
      · exact Or.inr (by simp [h])
    simp [appStep, process_document, hf, hsz]
    omega
  · intro fid uid name sz hs hlt hfmt hsz
    obtain ⟨st, fn, ci, sc, gr, sid0, sn, fl, ct, vf⟩ := s
    change st = FormState.entering_comment at hs
    subst hs
    simp only at hlt
    have hf : (!docIsPdf name && !docIsImage name) = false := by
      simp only [Bool.or_eq_true] at hfmt
      simp only [Bool.and_eq_false_iff, Bool.not_eq_true']
      rcases hfmt with h | h
      · exact Or.inl (by simp [h])
      · exact Or.inr (by simp [h])
    simp [appStep, process_extra_document, hf, hsz]
    omega
  · intro fid uid n hs hlt
    rw [appStep_comment_photo env s fid uid (some n) hs]
    unfold process_extra_photo
    rw [if_neg (by omega)]

/-- Closed instance of the amended C5: an oversized photo in the
file-collection state is rejected with the too-large message. -/
theorem claim5_size_ceiling_witness :
    appStep sampleEnv { state := .uploading_photos } (.photo "p" "u" (some 20971521))
      = ({ state := .uploading_photos }, [Msg.error_file_too_large], none) :=
  (claim5_size_ceiling sampleEnv { state := .uploading_photos }).1
    "p" "u" 20971521 rfl (by decide) (by decide)

/-- **C7 is false on the code**: with the minimum collected, a voice message
longer than the ceiling is a voice input that is *not* accepted as the
comment: nothing is persisted and the voice-length rejection is sent. -/
theorem claim7_counterexample :
    MIN_FILES ≤ sampleSession3.files.length ∧
    (appStep sampleEnv sampleSession3 (.voice "v" 61)).2.2 = none ∧
    (appStep sampleEnv sampleSession3 (.voice "v" 61)).2.1 = [Msg.error_voice_length] := by
  refine ⟨by decide, ?_, ?_⟩ <;> decide

/-- **C7 (amended)**: below `MIN_FILES` any text (other than the cancel
signal) or voice input is rejected with the need-more-files message and the
session is unchanged; from `MIN_FILES` on, a text input (non-cancel,
non-empty) or a voice input within the duration ceiling is accepted as the
comment and persists a submission holding exactly the accumulated
attachments, while an over-long voice input is rejected with the
voice-length message and persists nothing. -/
theorem claim7_collect_then_comment (env : Env) (s : Session) :
    (∀ t, s.state = .uploading_photos → s.files.length < MIN_FILES →
        t ≠ cancelText →
        appStep env s (.textMsg t) = (s, [.error_not_photo], none)) ∧
    (∀ fid dur, s.state = .uploading_photos → s.files.length < MIN_FILES →
        appStep env s (.voice fid dur) = (s, [.error_not_photo], none)) ∧
    (∀ t, (s.state = .uploading_photos ∨ s.state = .entering_comment) →
        MIN_FILES ≤ s.files.length → t ≠ cancelText → t ≠ "" →
        (appStep env s (.textMsg t)).2.2 =
          some { stage_id := s.stage_id, files := s.files,
                 comment_text := some t, voice_file_id := none } ∧
        (appStep env s (.textMsg t)).1 = clearSession) ∧
    (∀ fid dur, (s.state = .uploading_photos ∨ s.state = .entering_comment) →
        MIN_FILES ≤ s.files.length → dur ≤ MAX_VOICE_DURATION →
        (appStep env s (.voice fid dur)).2.2 =
          some { stage_id := s.stage_id, files := s.files,
                 comment_text := none, voice_file_id := some fid } ∧
        (appStep env s (.voice fid dur)).1 = clearSession) ∧
    (∀ fid dur, (s.state = .uploading_photos ∨ s.state = .entering_comment) →
        MIN_FILES ≤ s.files.length → MAX_VOICE_DURATION < dur →
        (appStep env s (.voice fid dur)).2.2 = none ∧
        (appStep env s (.voice fid dur)).2.1 = [.error_voice_length] ∧
        (appStep env s (.voice fid dur)).1.files = s.files) := by
  refine ⟨?_, ?_, ?_, ?_, ?_⟩
  · intro t hs hlt ht
    rw [appStep_uploading_text env s t hs ht,
      process_invalid_file_need_more s _ hlt]
  · intro fid dur hs hlt
    rw [appStep_uploading_voice env s fid dur hs,
      process_invalid_file_need_more s _ hlt]
  · intro t hs hmin ht hne
    rcases hs with hs | hs
    · rw [appStep_uploading_text env s t hs ht,
        process_invalid_file_text s t hmin ht hne,
        process_text_comment_go _ t ht]
      exact ⟨rfl, rfl⟩
    · rw [appStep_comment_text env s t hs,
        process_text_comment_go s t ht]
      exact ⟨rfl, rfl⟩
  · intro fid dur hs hmin hdur
    rcases hs with hs | hs
    · rw [appStep_uploading_voice env s fid dur hs,
        process_invalid_file_voice s fid dur hmin,
        process_voice_comment_ok _ fid dur hdur]
      exact ⟨rfl, rfl⟩
    · rw [appStep_comment_voice env s fid dur hs,
        process_voice_comment_ok s fid dur hdur]
      exact ⟨rfl, rfl⟩
  · intro fid dur hs hmin hdur
    rcases hs with hs | hs
    · rw [appStep_uploading_voice env s fid dur hs,
        process_invalid_file_voice s fid dur hmin,
        process_voice_comment_long _ fid dur hdur]
      exact ⟨rfl, rfl, rfl⟩
    · rw [appStep_comment_voice env s fid dur hs,
        process_voice_comment_long s fid dur hdur]
      exact ⟨rfl, rfl, rfl⟩

/-- Closed instance of the amended C7: with three files collected, a text
input becomes the comment and the submission holds exactly those files. -/
theorem claim7_collect_then_comment_witness :
    (appStep sampleEnv sampleSession3 (.textMsg "готово")).2.2 =
      some { stage_id := none, files := sampleSession3.files,
             comment_text := some "готово", voice_file_id := none } ∧
    (appStep sampleEnv sampleSession3 (.textMsg "готово")).1 = clearSession :=
  (claim7_collect_then_comment sampleEnv sampleSession3).2.2.1 "готово"
    (Or.inr rfl) (by decide) (by decide) (by decide)

/-! ## Local storage (src/bot/utils/local_storage.py)

`os.path.realpath` resolves symlinks against the real filesystem, so it is
kept abstract as a parameter `realpath`; the guards of `create_user_folder`
and `save_file` are checked before any directory creation or write, and the
embeddings return `Except.error` exactly where the Python raises
`ValueError`. -/

/-- Characters admitted by `re.sub(r'[^a-zA-Z0-9_\-@]', '_', name)`. -/
def isFolderSafeChar (c : Char) : Bool :=
  (0x61 ≤ c.toNat && c.toNat ≤ 0x7A) || (0x41 ≤ c.toNat && c.toNat ≤ 0x5A) ||
  (0x30 ≤ c.toNat && c.toNat ≤ 0x39) || c = '_' || c = '-' || c = '@'

def sanitize_folder_name (name : String) : String :=
  let n1 := replaceL ['/'] [] name.data
  let n2 := replaceL ['\\'] [] n1
  let n3 := replaceL ['.', '.'] [] n2
  let n4 := n3.map (fun c => if isFolderSafeChar c then c else '_')
  let n5 := n4.take 64
  if n5.isEmpty || n5 = ['@'] then "unknown_user" else String.mk n5

/-- Characters admitted by `re.sub(r'[^a-zA-Z0-9_\-]', '_', name)`. -/
def isFileSafeChar (c : Char) : Bool :=
  (0x61 ≤ c.toNat && c.toNat ≤ 0x7A) || (0x41 ≤ c.toNat && c.toNat ≤ 0x5A) ||
  (0x30 ≤ c.toNat && c.toNat ≤ 0x39) || c = '_' || c = '-'

/-- `os.path.basename` on POSIX: everything after the last slash. -/
def basenameL (l : List Char) : List Char :=
  (l.reverse.takeWhile (fun c => c ≠ '/')).reverse

/-- `os.path.splitext`: split at the last dot, except that a name whose every
character before that dot is itself a dot is left unsplit. -/
def splitextL (l : List Char) : List Char × List Char :=
  let ds := l.reverse.takeWhile (fun c => c ≠ '.')
  if ds.length = l.length then (l, [])
  else
    let sepIndex := l.length - ds.length - 1
    if (l.take sepIndex).all (fun c => c = '.') then (l, [])
    else (l.take sepIndex, l.drop sepIndex)

def allowed_extensions : List String :=
  [".jpg", ".jpeg", ".png", ".gif", ".bmp", ".webp", ".pdf", ".ogg"]

def sanitize_filename (filename : String) : String :=
  let f1 := basenameL filename.data
  let f2 := replaceL ['/'] [] f1
  let f3 := replaceL ['\\'] [] f2
  let f4 := replaceL ['.', '.'] [] f3
  let pe := splitextL f4
  let nm := pe.1.map (fun c => if isFileSafeChar c then c else '_')
  let ext0 : String := ⟨pe.2.map lowChar⟩
  let ext := if allowed_extensions.contains ext0 then ext0 else ".bin"
  let nm50 := nm.take 50
  if nm50.isEmpty then "file" ++ ext else String.mk nm50 ++ ext

def create_user_folder (realpath : String → String) (base username : String) :
    Except String String :=
  let user_folder := base ++ "/@" ++ sanitize_folder_name username
  if strStartsWith (realpath user_folder) (realpath base) then Except.ok user_folder
  else Except.error "Invalid folder path detected"

/-- The timestamped filename `save_file` builds from the sanitized name. -/
def saveFileName (file_name timestamp : String) : String :=
  let pe := splitextL (sanitize_filename file_name).data
  String.mk pe.1 ++ "_" ++ timestamp ++ String.mk pe.2

def savePath (file_name folder_path timestamp : String) : String :=
  folder_path ++ "/" ++ saveFileName file_name timestamp

def save_file (realpath : String → String)
    (uploads_dir file_name folder_path timestamp : String) : Except String String :=
  let file_path := savePath file_name folder_path timestamp
  if strStartsWith (realpath file_path) (realpath uploads_dir) then Except.ok file_path
  else Except.error "Invalid file path detected"

theorem folderSafe_excludes (c : Char) (h : isFolderSafeChar c = true) :
    c ≠ '/' ∧ c ≠ '\\' ∧ c ≠ '.' := by
  refine ⟨?_, ?_, ?_⟩ <;> rintro rfl <;> exact absurd h (by decide)

theorem fileSafe_excludes (c : Char) (h : isFileSafeChar c = true) :
    c ≠ '/' ∧ c ≠ '\\' := by
  refine ⟨?_, ?_⟩ <;> rintro rfl <;> exact absurd h (by decide)

theorem sanitize_folder_name_safe (u : String) :
    sanitize_folder_name u ≠ "" ∧
    (sanitize_folder_name u).length ≤ 64 ∧
    ∀ c ∈ (sanitize_folder_name u).data,
      isFolderSafeChar c = true ∧ c ≠ '/' ∧ c ≠ '\\' ∧ c ≠ '.' := by
  unfold sanitize_folder_name
  dsimp only
  split_ifs with h
  · exact ⟨by decide, by decide, by decide⟩
  · simp only [Bool.or_eq_true, not_or] at h
    refine ⟨?_, ?_, ?_⟩
    · intro he
      have : (String.mk _).data = ("" : String).data := congrArg String.data he
      apply h.1
      simp only [List.isEmpty_iff]
      exact this
    · show (List.take 64 _).length ≤ 64
      simpa using List.length_take_le 64 _
    · intro c hc
      have hc4 := List.mem_of_mem_take hc
      rcases List.mem_map.mp hc4 with ⟨a, _, rfl⟩
      by_cases ha : isFolderSafeChar a
      · rw [if_pos ha]
        exact ⟨ha, folderSafe_excludes a ha⟩
      · rw [if_neg ha]
        exact ⟨by decide, by decide, by decide, by decide⟩

theorem allowed_extensions_no_sep :
    ∀ e ∈ allowed_extensions, ∀ c ∈ e.data, c ≠ '/' ∧ c ≠ '\\' := by decide

theorem file_chars : ∀ c ∈ ("file" : String).data, c ≠ '/' ∧ c ≠ '\\' := by decide

theorem bin_chars : ∀ c ∈ (".bin" : String).data, c ≠ '/' ∧ c ≠ '\\' := by decide

theorem filename_shape (nm50 : List Char) (ext : String)
    (hnm : ∀ c ∈ nm50, c ≠ '/' ∧ c ≠ '\\')
    (hext : ext ∈ allowed_extensions ∨ ext = ".bin") :
    ∃ nmS extS : String,
      (if nm50.isEmpty then "file" ++ ext else String.mk nm50 ++ ext) = nmS ++ extS ∧
      (extS ∈ allowed_extensions ∨ extS = ".bin") ∧
      (∀ c ∈ nmS.data, c ≠ '/' ∧ c ≠ '\\') ∧
      (∀ c ∈ (if nm50.isEmpty then "file" ++ ext
              else String.mk nm50 ++ ext).data, c ≠ '/' ∧ c ≠ '\\') := by
  have hextc : ∀ c ∈ ext.data, c ≠ '/' ∧ c ≠ '\\' := by
    rcases hext with hm | rfl
    · exact allowed_extensions_no_sep ext hm
    · exact bin_chars
  by_cases hemp : nm50.isEmpty
  · rw [if_pos hemp]
    refine ⟨"file", ext, rfl, hext, file_chars, ?_⟩
    intro c hc
    rw [String.data_append] at hc
    rcases List.mem_append.mp hc with hc | hc
    · exact file_chars c hc
    · exact hextc c hc
  · rw [if_neg hemp]
    refine ⟨String.mk nm50, ext, rfl, hext, hnm, ?_⟩
    intro c hc
    rw [String.data_append] at hc
    rcases List.mem_append.mp hc with hc | hc
    · exact hnm c hc
    · exact hextc c hc

theorem sanitize_filename_safe (f : String) :
    ∃ nm ext : String,
      sanitize_filename f = nm ++ ext ∧
      (ext ∈ allowed_extensions ∨ ext = ".bin") ∧
      (∀ c ∈ nm.data, c ≠ '/' ∧ c ≠ '\\') ∧
      (∀ c ∈ (sanitize_filename f).data, c ≠ '/' ∧ c ≠ '\\') := by
  unfold sanitize_filename
  dsimp only
  apply filename_shape
  · intro c hc
    have hcm := List.mem_of_mem_take hc
    rcases List.mem_map.mp hcm with ⟨a, _, rfl⟩
    by_cases ha : isFileSafeChar a
    · rw [if_pos ha]
      exact fileSafe_excludes a ha
    · rw [if_neg ha]
      exact ⟨by decide, by decide⟩
  · split_ifs with hcon
    · exact Or.inl (List.mem_of_elem_eq_true hcon)
    · exact Or.inr rfl

/-- **C9**: the folder sanitizer yields a non-empty name of at most 64
characters over letters, digits, underscore, hyphen and `@` (hence free of
`/`, `\` and `..`); the filename sanitizer yields a separator-free name
whose extension is either in the fixed allow-list or `.bin`; and both
`create_user_folder` and `save_file` fail with an error — before any write —
whenever the resolved path does not stay under the respective base
directory. -/
theorem claim9_storage_sanitizers :
    (∀ u : String,
        sanitize_folder_name u ≠ "" ∧
        (sanitize_folder_name u).length ≤ 64 ∧
        ∀ c ∈ (sanitize_folder_name u).data,
          isFolderSafeChar c = true ∧ c ≠ '/' ∧ c ≠ '\\' ∧ c ≠ '.') ∧
    (∀ f : String,
        ∃ nm ext : String,
          sanitize_filename f = nm ++ ext ∧
          (ext ∈ allowed_extensions ∨ ext = ".bin") ∧
          (∀ c ∈ nm.data, c ≠ '/' ∧ c ≠ '\\') ∧
          (∀ c ∈ (sanitize_filename f).data, c ≠ '/' ∧ c ≠ '\\')) ∧
    (∀ (rp : String → String) (base u : String),
        strStartsWith (rp (base ++ "/@" ++ sanitize_folder_name u)) (rp base) = false →
        create_user_folder rp base u = .error "Invalid folder path detected") ∧
    (∀ (rp : String → String) (uploads fname folder ts : String),
        strStartsWith (rp (savePath fname folder ts)) (rp uploads) = false →
        save_file rp uploads fname folder ts = .error "Invalid file path detected") := by
  refine ⟨sanitize_folder_name_safe, sanitize_filename_safe, ?_, ?_⟩
  · intro rp base u h
    unfold create_user_folder
    dsimp only
    rw [h]
    rfl
  · intro rp uploads fname folder ts h
    unfold save_file
    dsimp only
    rw [h]
    rfl

/-- Closed instance of C9: a real-path resolution that leaves the uploads
root makes `create_user_folder` fail rather than return a path. -/
theorem claim9_storage_sanitizers_witness :
    create_user_folder (fun s => if s = "up" then "/secret" else s) "up" "evil"
      = Except.error "Invalid folder path detected" :=
  claim9_storage_sanitizers.2.2.1 (fun s => if s = "up" then "/secret" else s)
    "up" "evil" (by decide)

/-! ## Character-level facts for the validator proofs -/

theorem char_toNat_ofNat (n : ℕ) (h : n < 0xD800) : (Char.ofNat n).toNat = n := by
  have hv : n.isValidChar := Or.inl h
  unfold Char.ofNat
  rw [dif_pos hv]
  unfold Char.ofNatAux
  simp [Char.toNat, UInt32.toNat, Nat.mod_eq_of_lt (by omega : n < 4294967296)]

theorem char_eq_of_toNat_eq {a b : Char} (h : a.toNat = b.toNat) : a = b :=
  Char.eq_of_val_eq (UInt32.ext h)

theorem upChar_toNat (c : Char) :
    (upChar c).toNat =
      if 0x61 ≤ c.toNat ∧ c.toNat ≤ 0x7A then c.toNat - 0x20
      else if 0x430 ≤ c.toNat ∧ c.toNat ≤ 0x44F then c.toNat - 0x20
      else if c.toNat = 0x451 then 0x401
      else c.toNat := by
  unfold upChar
  split_ifs with h1 h2 h3
  · exact char_toNat_ofNat _ (by omega)
  · exact char_toNat_ofNat _ (by omega)
  · exact char_toNat_ofNat _ (by omega)
  · rfl

theorem lowChar_toNat (c : Char) :
    (lowChar c).toNat =
      if 0x41 ≤ c.toNat ∧ c.toNat ≤ 0x5A then c.toNat + 0x20
      else if 0x410 ≤ c.toNat ∧ c.toNat ≤ 0x42F then c.toNat + 0x20
      else if c.toNat = 0x401 then 0x451
      else c.toNat := by
  unfold lowChar
  split_ifs with h1 h2 h3
  · exact char_toNat_ofNat _ (by omega)
  · exact char_toNat_ofNat _ (by omega)
  · exact char_toNat_ofNat _ (by omega)
  · rfl

theorem upChar_idem (c : Char) : upChar (upChar c) = upChar c := by
  apply char_eq_of_toNat_eq
  rw [upChar_toNat, upChar_toNat c]
  split_ifs <;> omega

theorem lowChar_idem (c : Char) : lowChar (lowChar c) = lowChar c := by
  apply char_eq_of_toNat_eq
  rw [lowChar_toNat, lowChar_toNat c]
  split_ifs <;> omega

theorem isSpaceChar_upChar (c : Char) :
    isSpaceChar (upChar c) = isSpaceChar c := by
  rw [Bool.eq_iff_iff]
  simp only [isSpaceChar, upChar_toNat, Bool.or_eq_true, decide_eq_true_eq]
  split_ifs <;> omega

theorem isSpaceChar_lowChar (c : Char) :
    isSpaceChar (lowChar c) = isSpaceChar c := by
  rw [Bool.eq_iff_iff]
  simp only [isSpaceChar, lowChar_toNat, Bool.or_eq_true, decide_eq_true_eq]
  split_ifs <;> omega

theorem isFioChar_upChar (c : Char) (h : isFioChar c = true) :
    isFioChar (upChar c) = true := by
  simp only [isFioChar, isSpaceChar, Bool.or_eq_true, Bool.and_eq_true,
    decide_eq_true_eq, upChar_toNat] at h ⊢
  split_ifs <;> omega

theorem isFioChar_lowChar (c : Char) (h : isFioChar c = true) :
    isFioChar (lowChar c) = true := by
  simp only [isFioChar, isSpaceChar, Bool.or_eq_true, Bool.and_eq_true,
    decide_eq_true_eq, lowChar_toNat] at h ⊢
  split_ifs <;> omega

theorem isCityChar_upChar (c : Char) (h : isCityChar c = true) :
    isCityChar (upChar c) = true := by
  simp only [isCityChar, isFioChar, isSpaceChar, isAsciiDigit, Bool.or_eq_true,
    Bool.and_eq_true, decide_eq_true_eq, upChar_toNat] at h ⊢
  split_ifs <;> omega

theorem isCityChar_lowChar (c : Char) (h : isCityChar c = true) :
    isCityChar (lowChar c) = true := by
  simp only [isCityChar, isFioChar, isSpaceChar, isAsciiDigit, Bool.or_eq_true,
    Bool.and_eq_true, decide_eq_true_eq, lowChar_toNat] at h ⊢
  split_ifs <;> omega

theorem isAsciiDigit_upChar (c : Char) :
    isAsciiDigit (upChar c) = isAsciiDigit c := by
  rw [Bool.eq_iff_iff]
  simp only [isAsciiDigit, Bool.and_eq_true, decide_eq_true_eq, upChar_toNat]
  split_ifs <;> omega

theorem upChar_fixed_of_digit (c : Char) (h : isAsciiDigit c = true) :
    upChar c = c := by
  simp only [isAsciiDigit, Bool.and_eq_true, decide_eq_true_eq] at h
  unfold upChar
  split_ifs with h1 h2 h3
  · omega
  · omega
  · omega
  · rfl

theorem upChar_fixed_of_gradeLetter (c : Char) (h : gradeLetterOk c = true) :
    upChar c = c := by
  simp only [gradeLetterOk, Bool.or_eq_true, Bool.and_eq_true, decide_eq_true_eq] at h
  unfold upChar
  split_ifs with h1 h2 h3
  · omega
  · omega
  · omega
  · rfl

theorem gradeLetter_nonspace (c : Char) (h : gradeLetterOk c = true) :
    isSpaceChar c = false := by
  simp only [gradeLetterOk, Bool.or_eq_true, Bool.and_eq_true, decide_eq_true_eq] at h
  simp only [isSpaceChar, Bool.or_eq_false_iff, decide_eq_false_iff_not]
  omega

/-! ## Facts about `words`, `joinWords` and stripping -/

theorem wordsGo_succ_cons (f : ℕ) (c : Char) (cs : List Char) :
    wordsGo (f + 1) (c :: cs) =
      if isSpaceChar c then wordsGo f cs
      else (c :: cs.takeWhile (fun x => !isSpaceChar x))
             :: wordsGo f (cs.dropWhile (fun x => !isSpaceChar x)) := rfl

theorem wordsGo_fuel : ∀ (f g : ℕ) (l : List Char), l.length ≤ f → l.length ≤ g →
    wordsGo f l = wordsGo g l := by
  intro f
  induction f with
  | zero =>
    intro g l hf _
    cases l with
    | nil => cases g <;> rfl
    | cons c cs => simp at hf
  | succ f ih =>
    intro g l hf hg
    cases l with
    | nil => cases g <;> rfl
    | cons c cs =>
      cases g with
      | zero => simp at hg
      | succ g =>
        rw [wordsGo_succ_cons, wordsGo_succ_cons]
        by_cases hc : isSpaceChar c
        · rw [if_pos hc, if_pos hc]
          exact ih g cs (by simpa using hf) (by simpa using hg)
        · rw [if_neg hc, if_neg hc]
          congr 1
          exact ih g _
            (le_trans (List.dropWhile_suffix _).length_le (by simpa using hf))
            (le_trans (List.dropWhile_suffix _).length_le (by simpa using hg))

theorem words_nil : words [] = [] := rfl

theorem words_cons_space {c : Char} (cs : List Char) (hc : isSpaceChar c = true) :
    words (c :: cs) = words cs := by
  show wordsGo (cs.length + 1) (c :: cs) = wordsGo cs.length cs
  rw [wordsGo_succ_cons, if_pos hc]

theorem words_cons_nonspace {c : Char} (cs : List Char) (hc : isSpaceChar c = false) :
    words (c :: cs) = (c :: cs.takeWhile (fun x => !isSpaceChar x))
      :: words (cs.dropWhile (fun x => !isSpaceChar x)) := by
  show wordsGo (cs.length + 1) (c :: cs) = _
  rw [wordsGo_succ_cons, if_neg (by simp [hc])]
  congr 1
  exact wordsGo_fuel cs.length _ _ (le_trans (List.dropWhile_suffix _).length_le (by simp))
    (le_refl _)

theorem words_wf : ∀ (n : ℕ) (l : List Char), l.length ≤ n →
    ∀ w ∈ words l, w ≠ [] ∧ (∀ c ∈ w, isSpaceChar c = false) ∧ (∀ c ∈ w, c ∈ l) := by
  intro n
  induction n with
  | zero =>
    intro l hl w hw
    cases l with
    | nil => cases hw
    | cons c cs => simp at hl
  | succ n ih =>
    intro l hl w hw
    cases l with
    | nil => cases hw
    | cons c cs =>
      by_cases hc : isSpaceChar c
      · rw [words_cons_space cs hc] at hw
        have h := ih cs (by simpa using hl) w hw
        exact ⟨h.1, h.2.1, fun d hd => List.mem_cons_of_mem c (h.2.2 d hd)⟩
      · rw [words_cons_nonspace cs (by simpa using hc)] at hw
        rcases List.mem_cons.mp hw with hw | hw
        · subst hw
          refine ⟨by simp, ?_, ?_⟩
          · intro d hd
            rcases List.mem_cons.mp hd with hd | hd
            · subst hd; simpa using hc
            · simpa using List.mem_takeWhile_imp hd
          · intro d hd
            rcases List.mem_cons.mp hd with hd | hd
            · subst hd; simp
            · exact List.mem_cons_of_mem c (( List.takeWhile_prefix _).subset hd)
        · have hlen : (cs.dropWhile (fun x => !isSpaceChar x)).length ≤ n :=
            le_trans (List.dropWhile_suffix _).length_le (by simpa using hl)
          have h := ih _ hlen w hw
          exact ⟨h.1, h.2.1,
            fun d hd => List.mem_cons_of_mem c ((List.dropWhile_suffix _).subset (h.2.2 d hd))⟩

theorem words_nonempty {l : List Char} {w : List Char} (hw : w ∈ words l) : w ≠ [] :=
  (words_wf l.length l (le_refl _) w hw).1

theorem words_nonspace {l : List Char} {w : List Char} (hw : w ∈ words l) :
    ∀ c ∈ w, isSpaceChar c = false :=
  (words_wf l.length l (le_refl _) w hw).2.1

theorem words_chars {l : List Char} {w : List Char} (hw : w ∈ words l) :
    ∀ c ∈ w, c ∈ l :=
  (words_wf l.length l (le_refl _) w hw).2.2

theorem words_eq_nil_imp : ∀ (l : List Char), words l = [] → ∀ c ∈ l, isSpaceChar c = true := by
  intro l
  induction l with
  | nil => intro _ c hc; cases hc
  | cons c cs ih =>
    intro h d hd
    by_cases hc : isSpaceChar c
    · rw [words_cons_space cs hc] at h
      rcases List.mem_cons.mp hd with hd | hd
      · rw [hd]; exact hc
      · exact ih h d hd
    · rw [words_cons_nonspace cs (by simpa using hc)] at h
      cases h

theorem joinWords_nil : joinWords [] = [] := rfl

theorem joinWords_single (w : List Char) : joinWords [w] = w := rfl

theorem joinWords_cons₂ (w x : List Char) (ws : List (List Char)) :
    joinWords (w :: x :: ws) = w ++ ' ' :: joinWords (x :: ws) := rfl

theorem takeWhile_all_append (p : Char → Bool) (a b : List Char)
    (h : ∀ x ∈ a, p x = true) :
    (a ++ b).takeWhile p = a ++ b.takeWhile p := by
  induction a with
  | nil => simp
  | cons x a ih =>
    rw [List.cons_append, List.takeWhile_cons_of_pos (h x (by simp)), List.cons_append,
      ih (fun y hy => h y (by simp [hy]))]

theorem dropWhile_all_append (p : Char → Bool) (a b : List Char)
    (h : ∀ x ∈ a, p x = true) :
    (a ++ b).dropWhile p = b.dropWhile p := by
  induction a with
  | nil => simp
  | cons x a ih =>
    rw [List.cons_append, List.dropWhile_cons_of_pos (h x (by simp)),
      ih (fun y hy => h y (by simp [hy]))]

theorem words_of_word (w : List Char) (hne : w ≠ [])
    (hsp : ∀ c ∈ w, isSpaceChar c = false) : words w = [w] := by
  cases w with
  | nil => cases hne rfl
  | cons c cs =>
    rw [words_cons_nonspace cs (hsp c (by simp))]
    rw [List.takeWhile_eq_self_iff.mpr (fun x hx => by simp [hsp x (by simp [hx])])]
    rw [List.dropWhile_eq_nil_iff.mpr (fun x hx => by simp [hsp x (by simp [hx])])]
    rfl

theorem words_word_append (w t : List Char) (hne : w ≠ [])
    (hsp : ∀ c ∈ w, isSpaceChar c = false) :
    words (w ++ ' ' :: t) = w :: words t := by
  cases w with
  | nil => cases hne rfl
  | cons c cs =>
    rw [List.cons_append, words_cons_nonspace _ (hsp c (by simp))]
    have hcs : ∀ x ∈ cs, (!isSpaceChar x) = true := by
      intro x hx; simp [hsp x (by simp [hx])]
    have htake : (cs ++ ' ' :: t).takeWhile (fun x => !isSpaceChar x) = cs := by
      rw [takeWhile_all_append _ _ _ hcs, List.takeWhile_cons_of_neg (by simp [isSpaceChar])]
      simp
    have hdrop : (cs ++ ' ' :: t).dropWhile (fun x => !isSpaceChar x) = ' ' :: t := by
      rw [dropWhile_all_append _ _ _ hcs, List.dropWhile_cons_of_neg (by simp [isSpaceChar])]
    rw [htake, hdrop, words_cons_space t (by simp [isSpaceChar])]

theorem words_joinWords : ∀ ws : List (List Char),
    (∀ w ∈ ws, w ≠ [] ∧ ∀ c ∈ w, isSpaceChar c = false) →
    words (joinWords ws) = ws := by
  intro ws
  induction ws with
  | nil => intro _; rfl
  | cons w ws ih =>
    intro h
    cases ws with
    | nil => exact words_of_word w (h w (by simp)).1 (h w (by simp)).2
    | cons x ws2 =>
      rw [joinWords_cons₂, words_word_append w _ (h w (by simp)).1 (h w (by simp)).2,
        ih (fun v hv => h v (by simp [hv]))]

theorem joinWords_chars : ∀ (ws : List (List Char)) (c : Char),
    c ∈ joinWords ws → (∃ w ∈ ws, c ∈ w) ∨ c = ' ' := by
  intro ws
  induction ws with
  | nil => intro c hc; cases hc
  | cons w ws ih =>
    intro c hc
    cases ws with
    | nil => exact Or.inl ⟨w, by simp, hc⟩
    | cons x ws2 =>
      rw [joinWords_cons₂] at hc
      rcases List.mem_append.mp hc with hc | hc
      · exact Or.inl ⟨w, by simp, hc⟩
      · rcases List.mem_cons.mp hc with hc | hc
        · exact Or.inr hc
        · rcases ih c hc with ⟨v, hv, hcv⟩ | hc
          · exact Or.inl ⟨v, by simp [hv], hcv⟩
          · exact Or.inr hc

theorem joinWords_ne_nil (w : List Char) (ws : List (List Char)) (hw : w ≠ []) :
    joinWords (w :: ws) ≠ [] := by
  cases ws with
  | nil => exact hw
  | cons x ws2 =>
    rw [joinWords_cons₂]
    intro h
    rcases List.append_eq_nil.mp h with ⟨h1, h2⟩
    cases h2

theorem joinWords_length_le (x : List Char) (ws : List (List Char)) :
    x.length ≤ (joinWords (x :: ws)).length := by
  cases ws with
  | nil => exact le_refl _
  | cons y ws2 =>
    rw [joinWords_cons₂]
    simp

/-! Right stripping. -/

def rstripSpace (l : List Char) : List Char := (l.reverse.dropWhile isSpaceChar).reverse

theorem stripChars_cons_space {c : Char} (l : List Char) (hc : isSpaceChar c = true) :
    stripChars (c :: l) = stripChars l := by
  unfold stripChars
  rw [List.dropWhile_cons_of_pos hc]

theorem stripChars_of_head {c : Char} (cs : List Char) (hc : isSpaceChar c = false) :
    stripChars (c :: cs) = rstripSpace (c :: cs) := by
  unfold stripChars rstripSpace
  rw [List.dropWhile_cons_of_neg (by simp [hc])]

theorem rstrip_cons_nonspace (c : Char) (l : List Char) (hc : isSpaceChar c = false) :
    rstripSpace (c :: l) = c :: rstripSpace l := by
  unfold rstripSpace
  rw [show (c :: l).reverse = l.reverse ++ [c] by simp, List.dropWhile_append]
  by_cases h : (l.reverse.dropWhile isSpaceChar).isEmpty
  · rw [if_pos h, List.dropWhile_cons_of_neg (by simp [hc])]
    rw [List.isEmpty_iff.mp h]
    rfl
  · rw [if_neg h]
    simp

theorem rstrip_all_nonspace (l : List Char) (h : ∀ c ∈ l, isSpaceChar c = false) :
    rstripSpace l = l := by
  unfold rstripSpace
  have : l.reverse.dropWhile isSpaceChar = l.reverse := by
    cases hr : l.reverse with
    | nil => rfl
    | cons c cs =>
      have hc : c ∈ l := by
        rw [← List.mem_reverse, hr]; simp
      rw [List.dropWhile_cons_of_neg (by simp [h c hc])]
  rw [this, List.reverse_reverse]

theorem rstrip_append_all_space (a b : List Char) (hb : ∀ c ∈ b, isSpaceChar c = true) :
    rstripSpace (a ++ b) = rstripSpace a := by
  unfold rstripSpace
  rw [List.reverse_append, List.dropWhile_append, if_pos]
  simp only [List.isEmpty_iff]
  rw [List.dropWhile_eq_nil_iff]
  intro x hx
  exact hb x (by rw [← List.mem_reverse]; exact hx)

theorem rstrip_append_of_ne (a b : List Char) (hb : rstripSpace b ≠ []) :
    rstripSpace (a ++ b) = a ++ rstripSpace b := by
  unfold rstripSpace at hb ⊢
  rw [List.reverse_append, List.dropWhile_append, if_neg]
  · simp
  · intro h
    apply hb
    rw [List.isEmpty_iff.mp h]
    rfl

theorem rstrip_ne_nil (c : Char) (cs : List Char) (hc : isSpaceChar c = false) :
    rstripSpace (c :: cs) ≠ [] := by
  rw [rstrip_cons_nonspace c cs hc]
  simp

theorem stripChars_of_words_nil (l : List Char) (h : words l = []) :
    stripChars l = [] := by
  unfold stripChars
  rw [List.dropWhile_eq_nil_iff.mpr (fun x hx => words_eq_nil_imp l h x hx)]
  rfl

theorem stripChars_of_words_single : ∀ (l w : List Char), words l = [w] →
    stripChars l = w := by
  intro l
  induction l with
  | nil => intro w h; cases h
  | cons c cs ih =>
    intro w h
    by_cases hc : isSpaceChar c
    · rw [words_cons_space cs hc] at h
      rw [stripChars_cons_space cs hc]
      exact ih w h
    · rw [words_cons_nonspace cs (by simpa using hc)] at h
      have hw : w = c :: cs.takeWhile (fun x => !isSpaceChar x) := by
        have := (List.cons_eq_cons.mp h).1
        exact this.symm
      have hrest : words (cs.dropWhile (fun x => !isSpaceChar x)) = [] :=
        (List.cons_eq_cons.mp h).2
      have hallsp : ∀ x ∈ cs.dropWhile (fun x => !isSpaceChar x), isSpaceChar x = true :=
        words_eq_nil_imp _ hrest
      rw [stripChars_of_head cs (by simpa using hc)]
      rw [show cs = cs.takeWhile (fun x => !isSpaceChar x)
            ++ cs.dropWhile (fun x => !isSpaceChar x) from
          (List.takeWhile_append_dropWhile _ _).symm]
      rw [show c :: (cs.takeWhile (fun x => !isSpaceChar x)
            ++ cs.dropWhile (fun x => !isSpaceChar x))
          = (c :: cs.takeWhile (fun x => !isSpaceChar x))
            ++ cs.dropWhile (fun x => !isSpaceChar x) from rfl]
      rw [rstrip_append_all_space _ _ hallsp]
      rw [rstrip_all_nonspace _ ?_]
      · exact hw.symm
      · intro d hd
        rcases List.mem_cons.mp hd with hd | hd
        · rw [hd]; simpa using hc
        · simpa using List.mem_takeWhile_imp hd

/-! ## Capitalization facts -/

theorem capitalizeWord_ne_nil (w : List Char) (h : w ≠ []) : capitalizeWord w ≠ [] := by
  cases w with
  | nil => cases h rfl
  | cons c cs => simp [capitalizeWord]

theorem capitalizeWord_length (w : List Char) : (capitalizeWord w).length = w.length := by
  cases w with
  | nil => rfl
  | cons c cs => simp [capitalizeWord]

theorem capitalizeWord_nonspace (w : List Char)
    (h : ∀ c ∈ w, isSpaceChar c = false) :
    ∀ c ∈ capitalizeWord w, isSpaceChar c = false := by
  cases w with
  | nil => intro c hc; cases hc
  | cons c cs =>
    intro d hd
    rcases List.mem_cons.mp hd with hd | hd
    · rw [hd, isSpaceChar_upChar]
      exact h c (by simp)
    · rcases List.mem_map.mp hd with ⟨a, ha, rfl⟩
      rw [isSpaceChar_lowChar]
      exact h a (by simp [ha])

theorem capitalizeWord_fio (w : List Char)
    (h : ∀ c ∈ w, isFioChar c = true) :
    ∀ c ∈ capitalizeWord w, isFioChar c = true := by
  cases w with
  | nil => intro c hc; cases hc
  | cons c cs =>
    intro d hd
    rcases List.mem_cons.mp hd with hd | hd
    · rw [hd]
      exact isFioChar_upChar c (h c (by simp))
    · rcases List.mem_map.mp hd with ⟨a, ha, rfl⟩
      exact isFioChar_lowChar a (h a (by simp [ha]))

theorem capitalizeWord_city (w : List Char)
    (h : ∀ c ∈ w, isCityChar c = true) :
    ∀ c ∈ capitalizeWord w, isCityChar c = true := by
  cases w with
  | nil => intro c hc; cases hc
  | cons c cs =>
    intro d hd
    rcases List.mem_cons.mp hd with hd | hd
    · rw [hd]
      exact isCityChar_upChar c (h c (by simp))
    · rcases List.mem_map.mp hd with ⟨a, ha, rfl⟩
      exact isCityChar_lowChar a (h a (by simp [ha]))

theorem capitalizeWord_idem (w : List Char) :
    capitalizeWord (capitalizeWord w) = capitalizeWord w := by
  cases w with
  | nil => rfl
  | cons c cs =>
    show upChar (upChar c) :: (cs.map lowChar).map lowChar = upChar c :: cs.map lowChar
    rw [upChar_idem, List.map_map]
    congr 1
    apply List.map_congr_left
    intro a _
    exact lowChar_idem a

theorem capCityWord_ne_nil (w : List Char) (h : w ≠ []) : capCityWord w ≠ [] := by
  cases w with
  | nil => cases h rfl
  | cons c cs =>
    unfold capCityWord
    dsimp only
    split_ifs
    · simp
    · exact capitalizeWord_ne_nil _ (by simp)

theorem capCityWord_length (w : List Char) : (capCityWord w).length = w.length := by
  cases w with
  | nil => rfl
  | cons c cs =>
    unfold capCityWord
    dsimp only
    split_ifs
    · rfl
    · exact capitalizeWord_length _

theorem capCityWord_nonspace (w : List Char)
    (h : ∀ c ∈ w, isSpaceChar c = false) :
    ∀ c ∈ capCityWord w, isSpaceChar c = false := by
  cases w with
  | nil => intro c hc; cases hc
  | cons c cs =>
    unfold capCityWord
    dsimp only
    split_ifs
    · exact h
    · exact capitalizeWord_nonspace _ h

theorem capCityWord_city (w : List Char)
    (h : ∀ c ∈ w, isCityChar c = true) :
    ∀ c ∈ capCityWord w, isCityChar c = true := by
  cases w with
  | nil => intro c hc; cases hc
  | cons c cs =>
    unfold capCityWord
    dsimp only
    split_ifs
    · exact h
    · exact capitalizeWord_city _ h

theorem capCityWord_idem (w : List Char) :
    capCityWord (capCityWord w) = capCityWord w := by
  cases w with
  | nil => rfl
  | cons c cs =>
    by_cases hd : isAsciiDigit c
    · have h1 : capCityWord (c :: cs) = c :: cs := by
        unfold capCityWord
        dsimp only
        rw [if_pos hd]
      rw [h1, h1]
    · have h1 : capCityWord (c :: cs) = capitalizeWord (c :: cs) := by
        unfold capCityWord
        dsimp only
        rw [if_neg hd]
      rw [h1]
      have h2 : capCityWord (capitalizeWord (c :: cs))
          = capitalizeWord (capitalizeWord (c :: cs)) := by
        show capCityWord (upChar c :: cs.map lowChar) = _
        unfold capCityWord
        dsimp only
        rw [isAsciiDigit_upChar, if_neg hd]
        rfl
      rw [h2, capitalizeWord_idem]

/-! ## Idempotence of `validate_fio` on accepted values of length ≥ 5 -/

theorem validate_fio_of (s : String)
    (h5 : ¬ (stripChars s.data).length < 5)
    (hw : ¬ (words (collapse s.data)).length < 2)
    (hall : (!(collapse s.data).isEmpty && (collapse s.data).all isFioChar) = true) :
    validate_fio s =
      (true, ⟨joinWords ((words (collapse s.data)).map capitalizeWord)⟩,
       some ⟨joinWords ((words (collapse s.data)).map capitalizeWord)⟩) := by
  unfold validate_fio
  dsimp only
  rw [if_neg h5, if_neg hw, if_neg (by simp [hall])]

theorem validate_fio_accept_inv (s : String) (h : (validate_fio s).1 = true) :
    ¬ (stripChars s.data).length < 5 ∧
    ¬ (words (collapse s.data)).length < 2 ∧
    (!(collapse s.data).isEmpty && (collapse s.data).all isFioChar) = true ∧
    (validate_fio s).2.2 =
      some ⟨joinWords ((words (collapse s.data)).map capitalizeWord)⟩ := by
  by_cases h5 : (stripChars s.data).length < 5
  · unfold validate_fio at h
    dsimp only at h
    rw [if_pos h5] at h
    exact Bool.noConfusion h
  by_cases hw : (words (collapse s.data)).length < 2
  · unfold validate_fio at h
    dsimp only at h
    rw [if_neg h5, if_pos hw] at h
    exact Bool.noConfusion h
  by_cases hall : (!(collapse s.data).isEmpty && (collapse s.data).all isFioChar) = true
  · refine ⟨h5, hw, hall, ?_⟩
    rw [validate_fio_of s h5 hw hall]
  · have hallf : (!(collapse s.data).isEmpty && (collapse s.data).all isFioChar) = false := by
      cases hb : (!(collapse s.data).isEmpty && (collapse s.data).all isFioChar) with
      | false => rfl
      | true => exact absurd hb hall
    unfold validate_fio at h
    dsimp only at h
    rw [if_neg h5, if_neg hw, if_pos (by rw [hallf]; rfl)] at h
    exact Bool.noConfusion h

theorem joinWords_cons_head (c : Char) (cs : List Char) (ws : List (List Char)) :
    ∃ v, joinWords ((c :: cs) :: ws) = c :: v := by
  cases ws with
  | nil => exact ⟨cs, rfl⟩
  | cons x ws2 => exact ⟨cs ++ ' ' :: joinWords (x :: ws2), rfl⟩

theorem rstrip_joinWords : ∀ ws : List (List Char),
    (∀ w ∈ ws, w ≠ [] ∧ ∀ c ∈ w, isSpaceChar c = false) →
    rstripSpace (joinWords ws) = joinWords ws := by
  intro ws
  induction ws with
  | nil => intro _; rfl
  | cons w ws ih =>
    intro h
    cases ws with
    | nil => exact rstrip_all_nonspace w (h w (by simp)).2
    | cons x ws2 =>
      rw [joinWords_cons₂]
      have hx : rstripSpace (joinWords (x :: ws2)) = joinWords (x :: ws2) :=
        ih (fun v hv => h v (by simp [hv]))
      have hne : rstripSpace (joinWords (x :: ws2)) ≠ [] := by
        rw [hx]
        exact joinWords_ne_nil x ws2 (h x (by simp)).1
      rw [show w ++ ' ' :: joinWords (x :: ws2)
            = (w ++ [' ']) ++ joinWords (x :: ws2) by simp]
      rw [rstrip_append_of_ne _ _ hne, hx]

theorem stripChars_clean_join (ws : List (List Char))
    (h : ∀ w ∈ ws, w ≠ [] ∧ ∀ c ∈ w, isSpaceChar c = false) (hne : ws ≠ []) :
    stripChars (joinWords ws) = joinWords ws := by
  cases ws with
  | nil => cases hne rfl
  | cons w ws2 =>
    cases hw : w with
    | nil => exact absurd hw (h w (by simp)).1
    | cons c cs =>
      subst hw
      obtain ⟨v, hv⟩ := joinWords_cons_head c cs ws2
      rw [hv]
      have hc : isSpaceChar c = false := (h (c :: cs) (by simp)).2 c (by simp)
      rw [stripChars_of_head _ hc, ← hv]
      exact rstrip_joinWords ((c :: cs) :: ws2) h

theorem words_collapse (l : List Char) : words (collapse l) = words l :=
  words_joinWords (words l)
    (fun w hw => ⟨words_nonempty hw, words_nonspace hw⟩)

theorem validate_fio_idem (s o : String)
    (h1 : (validate_fio s).1 = true)
    (h2 : (validate_fio s).2.2 = some o)
    (hlen : 5 ≤ o.length) :
    validate_fio o = (true, o, some o) := by
  obtain ⟨h5, hw, hall, hval⟩ := validate_fio_accept_inv s h1
  rw [h2] at hval
  have ho : o = ⟨joinWords ((words (collapse s.data)).map capitalizeWord)⟩ :=
    Option.some.inj hval
  set ws := words (collapse s.data) with hws
  have hwsprop : ∀ w ∈ ws, w ≠ [] ∧ ∀ c ∈ w, isSpaceChar c = false :=
    fun w hw2 => ⟨words_nonempty hw2, words_nonspace hw2⟩
  have hallparts : (!(collapse s.data).isEmpty) = true ∧
      (collapse s.data).all isFioChar = true := by simpa using hall
  have hwsfio : ∀ w ∈ ws, ∀ c ∈ w, isFioChar c = true := by
    intro w hw2 c hc
    have hcmem : c ∈ collapse s.data := words_chars hw2 c hc
    exact List.all_eq_true.mp hallparts.2 c hcmem
  set wc := ws.map capitalizeWord with hwc
  have hwcprop : ∀ w ∈ wc, w ≠ [] ∧ ∀ c ∈ w, isSpaceChar c = false := by
    intro w hw2
    rcases List.mem_map.mp hw2 with ⟨v, hv, rfl⟩
    exact ⟨capitalizeWord_ne_nil v (hwsprop v hv).1,
           capitalizeWord_nonspace v (hwsprop v hv).2⟩
  have hwcne : wc ≠ [] := by
    intro h0
    have hws0 : ws = [] := List.map_eq_nil_iff.mp (by rw [← hwc]; exact h0)
    rw [hws0] at hw
    exact hw (by simp)
  have hod : o.data = joinWords wc := by rw [ho]
  have hwords_o : words o.data = wc := by
    rw [hod]; exact words_joinWords wc hwcprop
  have hcol : collapse o.data = o.data := by
    unfold collapse
    rw [hwords_o, hod]
  have hstrip : stripChars o.data = o.data := by
    rw [hod]
    exact stripChars_clean_join wc hwcprop hwcne
  have h5o : ¬ (stripChars o.data).length < 5 := by
    rw [hstrip]
    have : o.length = o.data.length := rfl
    omega
  have hwo : ¬ (words (collapse o.data)).length < 2 := by
    rw [hcol, hwords_o, hwc, List.length_map]
    exact hw
  have hallo : (!(collapse o.data).isEmpty && (collapse o.data).all isFioChar) = true := by
    rw [hcol, hod]
    rw [Bool.and_eq_true]
    obtain ⟨w0, ws0, hwc0⟩ := List.exists_cons_of_ne_nil hwcne
    constructor
    · rw [hwc0]
      have hne0 : joinWords (w0 :: ws0) ≠ [] :=
        joinWords_ne_nil w0 ws0 (hwcprop w0 (by rw [hwc0]; simp)).1
      cases hje : (joinWords (w0 :: ws0)).isEmpty
      · rfl
      · exact absurd (List.isEmpty_iff.mp hje) hne0
    · rw [List.all_eq_true]
      intro c hc
      rcases joinWords_chars wc c hc with ⟨w, hw2, hcw⟩ | rfl
      · rcases List.mem_map.mp hw2 with ⟨v, hv, rfl⟩
        exact capitalizeWord_fio v (hwsfio v hv) c hcw
      · decide
  rw [validate_fio_of o h5o hwo hallo]
  have hmap : (words (collapse o.data)).map capitalizeWord = wc := by
    rw [hcol, hwords_o, hwc, List.map_map]
    apply List.map_congr_left
    intro w _
    exact capitalizeWord_idem w
  rw [hmap, ← hod]

/-! ## Idempotence of `validate_city` -/

theorem joinWords_cons₂_length (a b : List Char) (ws : List (List Char))
    (ha : a ≠ []) (hb : b ≠ []) :
    3 ≤ (joinWords (a :: b :: ws)).length := by
  rw [joinWords_cons₂]
  have h1 : 1 ≤ a.length := List.length_pos.mpr ha
  have h2 : 1 ≤ b.length := List.length_pos.mpr hb
  have h3 := joinWords_length_le b ws
  simp only [List.length_append, List.length_cons]
  omega

theorem validate_city_of (s : String)
    (h2 : ¬ (stripChars s.data).length < 2)
    (hall : (!(collapse s.data).isEmpty && (collapse s.data).all isCityChar) = true) :
    validate_city s =
      (true, ⟨joinWords ((words (collapse s.data)).map capCityWord)⟩,
       some ⟨joinWords ((words (collapse s.data)).map capCityWord)⟩) := by
  unfold validate_city
  dsimp only
  rw [if_neg h2, if_neg (by simp [hall])]

theorem validate_city_accept_inv (s : String) (h : (validate_city s).1 = true) :
    ¬ (stripChars s.data).length < 2 ∧
    (!(collapse s.data).isEmpty && (collapse s.data).all isCityChar) = true ∧
    (validate_city s).2.2 =
      some ⟨joinWords ((words (collapse s.data)).map capCityWord)⟩ := by
  by_cases h2 : (stripChars s.data).length < 2
  · unfold validate_city at h
    dsimp only at h
    rw [if_pos h2] at h
    exact Bool.noConfusion h
  by_cases hall : (!(collapse s.data).isEmpty && (collapse s.data).all isCityChar) = true
  · exact ⟨h2, hall, by rw [validate_city_of s h2 hall]⟩
  · have hallf : (!(collapse s.data).isEmpty && (collapse s.data).all isCityChar) = false := by
      cases hb : (!(collapse s.data).isEmpty && (collapse s.data).all isCityChar) with
      | false => rfl
      | true => exact absurd hb hall
    unfold validate_city at h
    dsimp only at h
    rw [if_neg h2, if_pos (by rw [hallf]; rfl)] at h
    exact Bool.noConfusion h

theorem validate_city_idem (s o : String)
    (h1 : (validate_city s).1 = true)
    (h2 : (validate_city s).2.2 = some o) :
    validate_city o = (true, o, some o) := by
  obtain ⟨hl, hall, hval⟩ := validate_city_accept_inv s h1
  rw [h2] at hval
  have ho : o = ⟨joinWords ((words (collapse s.data)).map capCityWord)⟩ :=
    Option.some.inj hval
  set ws := words (collapse s.data) with hws
  have hwseq : ws = words s.data := words_collapse s.data
  have hwsprop : ∀ w ∈ ws, w ≠ [] ∧ ∀ c ∈ w, isSpaceChar c = false :=
    fun w hw2 => ⟨words_nonempty hw2, words_nonspace hw2⟩
  have hallparts : (!(collapse s.data).isEmpty) = true ∧
      (collapse s.data).all isCityChar = true := by simpa using hall
  have hwscity : ∀ w ∈ ws, ∀ c ∈ w, isCityChar c = true := by
    intro w hw2 c hc
    exact List.all_eq_true.mp hallparts.2 c (words_chars hw2 c hc)
  have hcolne : collapse s.data ≠ [] := by
    intro h0
    rw [h0] at hallparts
    exact Bool.noConfusion hallparts.1
  have hwsne : ws ≠ [] := by
    intro h0
    apply hcolne
    show joinWords (words s.data) = []
    rw [← hwseq, h0]
    rfl
  set wc := ws.map capCityWord with hwc
  have hwcprop : ∀ w ∈ wc, w ≠ [] ∧ ∀ c ∈ w, isSpaceChar c = false := by
    intro w hw2
    rcases List.mem_map.mp hw2 with ⟨v, hv, rfl⟩
    exact ⟨capCityWord_ne_nil v (hwsprop v hv).1,
           capCityWord_nonspace v (hwsprop v hv).2⟩
  have hwcne : wc ≠ [] := by
    intro h0
    exact hwsne (List.map_eq_nil_iff.mp (by rw [← hwc]; exact h0))
  have hod : o.data = joinWords wc := by rw [ho]
  have hwords_o : words o.data = wc := by
    rw [hod]; exact words_joinWords wc hwcprop
  have hcol : collapse o.data = o.data := by
    unfold collapse
    rw [hwords_o, hod]
  have hstrip : stripChars o.data = o.data := by
    rw [hod]
    exact stripChars_clean_join wc hwcprop hwcne
  have h2o : ¬ (stripChars o.data).length < 2 := by
    rw [hstrip, hod]
    obtain ⟨w0, ws0, hws0⟩ := List.exists_cons_of_ne_nil hwsne
    cases ws0 with
    | nil =>
      have hwc0 : wc = [capCityWord w0] := by rw [hwc, hws0]; rfl
      rw [hwc0, joinWords_single, capCityWord_length]
      have hsingle : stripChars s.data = w0 := by
        apply stripChars_of_words_single
        rw [← hwseq, hws0]
      rw [hsingle] at hl
      omega
    | cons w1 ws1 =>
      have hwc0 : wc = capCityWord w0 :: capCityWord w1 :: ws1.map capCityWord := by
        rw [hwc, hws0]
        rfl
      rw [hwc0]
      have h3 := joinWords_cons₂_length (capCityWord w0) (capCityWord w1)
        (ws1.map capCityWord)
        (capCityWord_ne_nil w0 (hwsprop w0 (by rw [hws0]; simp)).1)
        (capCityWord_ne_nil w1 (hwsprop w1 (by rw [hws0]; simp)).1)
      omega
  have hallo : (!(collapse o.data).isEmpty && (collapse o.data).all isCityChar) = true := by
    rw [hcol, hod, Bool.and_eq_true]
    obtain ⟨w0, ws0, hwc0⟩ := List.exists_cons_of_ne_nil hwcne
    constructor
    · rw [hwc0]
      have hne0 : joinWords (w0 :: ws0) ≠ [] :=
        joinWords_ne_nil w0 ws0 (hwcprop w0 (by rw [hwc0]; simp)).1
      cases hje : (joinWords (w0 :: ws0)).isEmpty
      · rfl
      · exact absurd (List.isEmpty_iff.mp hje) hne0
    · rw [List.all_eq_true]
      intro c hc
      rcases joinWords_chars wc c hc with ⟨w, hw2, hcw⟩ | rfl
      · rcases List.mem_map.mp hw2 with ⟨v, hv, rfl⟩
        exact capCityWord_city v (hwscity v hv) c hcw
      · decide
  rw [validate_city_of o h2o hallo]
  have hmap : (words (collapse o.data)).map capCityWord = wc := by
    rw [hcol, hwords_o, hwc, List.map_map]
    apply List.map_congr_left
    intro w _
    exact capCityWord_idem w
  rw [hmap, ← hod]

/-! ## Idempotence of validate_grade -/

theorem gradeLetter_not_digit (c : Char) (h : gradeLetterOk c = true) :
    isAsciiDigit c = false := by
  simp only [gradeLetterOk, Bool.or_eq_true, Bool.and_eq_true, decide_eq_true_eq] at h
  cases hb : isAsciiDigit c with
  | false => rfl
  | true =>
    exfalso
    simp only [isAsciiDigit, Bool.and_eq_true, decide_eq_true_eq] at hb
    omega

theorem digit_nonspace (c : Char) (h : isAsciiDigit c = true) :
    isSpaceChar c = false := by
  simp only [isAsciiDigit, Bool.and_eq_true, decide_eq_true_eq] at h
  simp only [isSpaceChar, Bool.or_eq_false_iff, decide_eq_false_iff_not]
  omega

theorem stripChars_all_nonspace (l : List Char) (h : ∀ c ∈ l, isSpaceChar c = false) :
    stripChars l = l := by
  cases l with
  | nil => rfl
  | cons c cs =>
    rw [stripChars_of_head cs (h c (by simp))]
    exact rstrip_all_nonspace (c :: cs) h

theorem gradeNum_cons₂ (d1 d2 : Char) (r : List Char) :
    gradeNum (d1 :: d2 :: r) =
      (if isAsciiDigit d1 then
        (if isAsciiDigit d2 then some (digitVal d1 * 10 + digitVal d2, r)
         else some (digitVal d1, d2 :: r))
       else none) := rfl

theorem gradeTail_single (c : Char) (hg : gradeLetterOk c = true) :
    gradeTail [c] = some (some c) := by
  have hns := gradeLetter_nonspace c hg
  unfold gradeTail
  rw [List.dropWhile_cons_of_neg (by simp [hns])]
  dsimp only
  rw [if_pos hg]

theorem gradeTail_some_letter (rest : List Char) (c : Char)
    (h : gradeTail rest = some (some c)) : gradeLetterOk c = true := by
  unfold gradeTail at h
  cases hm : rest.dropWhile isSpaceChar with
  | nil =>
    rw [hm] at h
    dsimp only at h
    simp at h
  | cons a t =>
    cases t with
    | nil =>
      rw [hm] at h
      dsimp only at h
      split_ifs at h with hga
      rw [← Option.some.inj (Option.some.inj h)]
      exact hga
    | cons b t2 =>
      rw [hm] at h
      dsimp only at h
      exact Option.noConfusion h

theorem parseGrade_comp (l : List Char) (n : ℕ) (rest : List Char) (lo : Option Char)
    (h1 : gradeNum l = some (n, rest)) (h2 : gradeTail rest = some lo) :
    parseGrade l = some (n, lo) := by
  unfold parseGrade
  rw [h1]
  dsimp only
  rw [h2]

theorem parseGrade_inv (l : List Char) (n : ℕ) (lo : Option Char)
    (h : parseGrade l = some (n, lo)) :
    ∃ rest, gradeNum l = some (n, rest) ∧ gradeTail rest = some lo := by
  unfold parseGrade at h
  cases hgn : gradeNum l with
  | none =>
    rw [hgn] at h
    dsimp only at h
    exact Option.noConfusion h
  | some p =>
    rw [hgn] at h
    dsimp only at h
    cases hgt : gradeTail p.2 with
    | none =>
      rw [hgt] at h
      dsimp only at h
      exact Option.noConfusion h
    | some lo2 =>
      rw [hgt] at h
      dsimp only at h
      have hp := Option.some.inj h
      have hfst : p.1 = n := congrArg Prod.fst hp
      have hsnd : lo2 = lo := congrArg Prod.snd hp
      refine ⟨p.2, ?_, ?_⟩
      · rw [← hfst]
      · rw [hgt, hsnd]

theorem parseGrade_d1_letter (d c : Char) (hd : isAsciiDigit d = true)
    (hg : gradeLetterOk c = true) :
    parseGrade [d, c] = some (digitVal d, some c) := by
  have hnd := gradeLetter_not_digit c hg
  refine parseGrade_comp _ _ [c] _ ?_ (gradeTail_single c hg)
  rw [gradeNum_cons₂, if_pos hd, if_neg (by simp [hnd])]

theorem parseGrade_d2_letter (d1 d2 c : Char) (h1 : isAsciiDigit d1 = true)
    (h2 : isAsciiDigit d2 = true) (hg : gradeLetterOk c = true) :
    parseGrade [d1, d2, c] = some (digitVal d1 * 10 + digitVal d2, some c) := by
  refine parseGrade_comp _ _ [c] _ ?_ (gradeTail_single c hg)
  rw [gradeNum_cons₂, if_pos h1, if_pos h2]

theorem parseGrade_roundtrip (n : ℕ) (hn1 : 1 ≤ n) (hn2 : n ≤ 11) (lo : Option Char)
    (hlo : ∀ c, lo = some c → gradeLetterOk c = true) :
    parseGrade (Nat.toDigits 10 n ++ gradeSuffix lo) =
      some (n, lo) := by
  cases lo with
  | none => interval_cases n <;> decide
  | some c =>
    have hg := hlo c rfl
    interval_cases n
    · rw [show Nat.toDigits 10 1 = ['1'] from by decide]
      have h := parseGrade_d1_letter '1' c (by decide) hg
      rw [show digitVal '1' = 1 from by decide] at h
      exact h
    · rw [show Nat.toDigits 10 2 = ['2'] from by decide]
      have h := parseGrade_d1_letter '2' c (by decide) hg
      rw [show digitVal '2' = 2 from by decide] at h
      exact h
    · rw [show Nat.toDigits 10 3 = ['3'] from by decide]
      have h := parseGrade_d1_letter '3' c (by decide) hg
      rw [show digitVal '3' = 3 from by decide] at h
      exact h
    · rw [show Nat.toDigits 10 4 = ['4'] from by decide]
      have h := parseGrade_d1_letter '4' c (by decide) hg
      rw [show digitVal '4' = 4 from by decide] at h
      exact h
    · rw [show Nat.toDigits 10 5 = ['5'] from by decide]
      have h := parseGrade_d1_letter '5' c (by decide) hg
      rw [show digitVal '5' = 5 from by decide] at h
      exact h
    · rw [show Nat.toDigits 10 6 = ['6'] from by decide]
      have h := parseGrade_d1_letter '6' c (by decide) hg
      rw [show digitVal '6' = 6 from by decide] at h
      exact h
    · rw [show Nat.toDigits 10 7 = ['7'] from by decide]
      have h := parseGrade_d1_letter '7' c (by decide) hg
      rw [show digitVal '7' = 7 from by decide] at h
      exact h
    · rw [show Nat.toDigits 10 8 = ['8'] from by decide]
      have h := parseGrade_d1_letter '8' c (by decide) hg
      rw [show digitVal '8' = 8 from by decide] at h
      exact h
    · rw [show Nat.toDigits 10 9 = ['9'] from by decide]
      have h := parseGrade_d1_letter '9' c (by decide) hg
      rw [show digitVal '9' = 9 from by decide] at h
      exact h
    · rw [show Nat.toDigits 10 10 = ['1', '0'] from by decide]
      have h := parseGrade_d2_letter '1' '0' c (by decide) (by decide) hg
      rw [show digitVal '1' * 10 + digitVal '0' = 10 from by decide] at h
      exact h
    · rw [show Nat.toDigits 10 11 = ['1', '1'] from by decide]
      have h := parseGrade_d2_letter '1' '1' c (by decide) (by decide) hg
      rw [show digitVal '1' * 10 + digitVal '1' = 11 from by decide] at h
      exact h

theorem validate_grade_of (s : String) (hne : ¬ s = "") (n : ℕ) (lo : Option Char)
    (hp : parseGrade ((stripChars s.data).map upChar) = some (n, lo))
    (hr : (decide (n < 1) || decide (n > 11)) = false) :
    validate_grade s =
      (true, ⟨Nat.toDigits 10 n ++ gradeSuffix lo⟩,
       some ⟨Nat.toDigits 10 n ++ gradeSuffix lo⟩) := by
  unfold validate_grade
  rw [if_neg hne]
  dsimp only
  rw [hp]
  dsimp only
  have hcond : ¬ ((decide (n < 1) || decide (n > 11)) = true) := by
    rw [hr]
    exact Bool.false_ne_true
  rw [if_neg hcond]

theorem validate_grade_accept_inv (s : String) (h : (validate_grade s).1 = true) :
    ∃ n lo, parseGrade ((stripChars s.data).map upChar) = some (n, lo) ∧
      1 ≤ n ∧ n ≤ 11 ∧
      (validate_grade s).2.2 =
        some ⟨Nat.toDigits 10 n ++ gradeSuffix lo⟩ := by
  by_cases hne : s = ""
  · exfalso
    unfold validate_grade at h
    rw [if_pos hne] at h
    exact Bool.noConfusion h
  · unfold validate_grade at h
    rw [if_neg hne] at h
    dsimp only at h
    cases hp : parseGrade ((stripChars s.data).map upChar) with
    | none =>
      rw [hp] at h
      dsimp only at h
      exact Bool.noConfusion h
    | some p =>
      rw [hp] at h
      dsimp only at h
      cases hrc : (decide (p.1 < 1) || decide (p.1 > 11)) with
      | true =>
        exfalso
        rw [hrc, if_pos rfl] at h
        exact Bool.noConfusion h
      | false =>
        have hbounds : 1 ≤ p.1 ∧ p.1 ≤ 11 := by
          simp only [Bool.or_eq_false_iff, decide_eq_false_iff_not] at hrc
          omega
        have hof := validate_grade_of s hne p.1 p.2 hp hrc
        exact ⟨p.1, p.2, rfl, hbounds.1, hbounds.2, by rw [hof]⟩

theorem toDigits_grade (n : ℕ) (hn1 : 1 ≤ n) (hn2 : n ≤ 11) :
    Nat.toDigits 10 n ≠ [] ∧ ∀ c ∈ Nat.toDigits 10 n, isAsciiDigit c = true := by
  interval_cases n <;> exact ⟨by decide, by decide⟩

theorem validate_grade_idem (s o : String)
    (h1 : (validate_grade s).1 = true)
    (h2 : (validate_grade s).2.2 = some o) :
    validate_grade o = (true, o, some o) := by
  obtain ⟨n, lo, hp, hn1, hn11, hval⟩ := validate_grade_accept_inv s h1
  rw [h2] at hval
  have ho : o = ⟨Nat.toDigits 10 n ++ gradeSuffix lo⟩ :=
    Option.some.inj hval
  obtain ⟨hdne, hddig⟩ := toDigits_grade n hn1 hn11
  have hlo : ∀ c, lo = some c → gradeLetterOk c = true := by
    intro c hc
    obtain ⟨rest, hgn, hgt⟩ := parseGrade_inv _ n lo hp
    rw [hc] at hgt
    exact gradeTail_some_letter rest c hgt
  have hsfxg : ∀ c ∈ gradeSuffix lo, gradeLetterOk c = true := by
    cases lo with
    | none =>
      intro c hc
      exact absurd hc (List.not_mem_nil c)
    | some c2 =>
      intro c hc
      rw [List.mem_singleton.mp hc]
      exact hlo c2 rfl
  have hdata : o.data = Nat.toDigits 10 n ++ gradeSuffix lo := by rw [ho]
  have hchars : ∀ c ∈ o.data, isSpaceChar c = false ∧ upChar c = c := by
    intro c hc
    rw [hdata] at hc
    rcases List.mem_append.mp hc with hc | hc
    · exact ⟨digit_nonspace c (hddig c hc), upChar_fixed_of_digit c (hddig c hc)⟩
    · exact ⟨gradeLetter_nonspace c (hsfxg c hc),
             upChar_fixed_of_gradeLetter c (hsfxg c hc)⟩
  have hone : ¬ o = "" := by
    intro h0
    have hodata : o.data = [] := by rw [h0]
    rw [hdata] at hodata
    exact hdne (List.append_eq_nil.mp hodata).1
  have hstrip : stripChars o.data = o.data :=
    stripChars_all_nonspace o.data (fun c hc => (hchars c hc).1)
  have hmap : o.data.map upChar = o.data :=
    calc o.data.map upChar = o.data.map id :=
          List.map_congr_left (fun c hc => (hchars c hc).2)
      _ = o.data := List.map_id o.data
  have hparse : parseGrade ((stripChars o.data).map upChar) = some (n, lo) := by
    rw [hstrip, hmap, hdata]
    exact parseGrade_roundtrip n hn1 hn11 lo hlo
  have hrc : (decide (n < 1) || decide (n > 11)) = false := by
    simp only [Bool.or_eq_false_iff, decide_eq_false_iff_not]
    omega
  rw [validate_grade_of o hone n lo hparse hrc, ← ho]


/-! ## Idempotence of validate_school

The two Python replacements are characterized by structurally recursive
functions: `insNum` for `t.replace('№', '№ ')` and `dd` for
`t.replace('  ', ' ')` (leftmost, non-overlapping).  On inputs with no
adjacent double spaces their composition equals the one-pass normal form
`canon`, whose fixed points make the validator idempotent. -/

def insNum : List Char → List Char
  | [] => []
  | c :: rest => if c = '№' then '№' :: ' ' :: insNum rest else c :: insNum rest

def dd : List Char → List Char
  | [] => []
  | [c] => [c]
  | a :: b :: rest => if a = ' ' ∧ b = ' ' then ' ' :: dd rest else a :: dd (b :: rest)

def canon : List Char → List Char
  | [] => []
  | [c] => if c = '№' then ['№', ' '] else [c]
  | c :: c2 :: r =>
    if c = '№' then
      (if c2 = ' ' then '№' :: ' ' :: canon r else '№' :: ' ' :: canon (c2 :: r))
    else c :: canon (c2 :: r)

/-- No two adjacent spaces. -/
def NoDD : List Char → Prop
  | a :: b :: rest => ¬(a = ' ' ∧ b = ' ') ∧ NoDD (b :: rest)
  | _ => True

theorem insNum_cons (c : Char) (r : List Char) :
    insNum (c :: r) = if c = '№' then '№' :: ' ' :: insNum r else c :: insNum r := rfl

theorem insNum_num (r : List Char) : insNum ('№' :: r) = '№' :: ' ' :: insNum r := by
  rw [insNum_cons, if_pos rfl]

theorem insNum_other (c : Char) (r : List Char) (h : ¬ c = '№') :
    insNum (c :: r) = c :: insNum r := by
  rw [insNum_cons, if_neg h]

theorem insNum_cons_head (c : Char) (r : List Char) : ∃ w, insNum (c :: r) = c :: w := by
  by_cases h : c = '№'
  · subst h
    exact ⟨' ' :: insNum r, insNum_num r⟩
  · exact ⟨insNum r, insNum_other c r h⟩

theorem dd_single (c : Char) : dd [c] = [c] := rfl

theorem dd_cons₂ (a b : Char) (r : List Char) :
    dd (a :: b :: r) =
      if a = ' ' ∧ b = ' ' then ' ' :: dd r else a :: dd (b :: r) := rfl

theorem dd_space2 (r : List Char) : dd (' ' :: ' ' :: r) = ' ' :: dd r := by
  rw [dd_cons₂, if_pos ⟨rfl, rfl⟩]

theorem dd_step (a b : Char) (r : List Char) (h : ¬(a = ' ' ∧ b = ' ')) :
    dd (a :: b :: r) = a :: dd (b :: r) := by
  rw [dd_cons₂, if_neg h]

theorem canon_single (c : Char) :
    canon [c] = if c = '№' then ['№', ' '] else [c] := rfl

theorem canon_cons₂ (c c2 : Char) (r : List Char) :
    canon (c :: c2 :: r) =
      if c = '№' then
        (if c2 = ' ' then '№' :: ' ' :: canon r else '№' :: ' ' :: canon (c2 :: r))
      else c :: canon (c2 :: r) := rfl

theorem canon_num_nil : canon ['№'] = ['№', ' '] := by
  rw [canon_single, if_pos rfl]

theorem canon_single_other (c : Char) (h : ¬ c = '№') : canon [c] = [c] := by
  rw [canon_single, if_neg h]

theorem canon_num_space (r : List Char) :
    canon ('№' :: ' ' :: r) = '№' :: ' ' :: canon r := by
  rw [canon_cons₂, if_pos rfl, if_pos rfl]

theorem canon_num_ns (c2 : Char) (r : List Char) (h : ¬ c2 = ' ') :
    canon ('№' :: c2 :: r) = '№' :: ' ' :: canon (c2 :: r) := by
  rw [canon_cons₂, if_pos rfl, if_neg h]

theorem canon_other (c c2 : Char) (r : List Char) (h : ¬ c = '№') :
    canon (c :: c2 :: r) = c :: canon (c2 :: r) := by
  rw [canon_cons₂, if_neg h]

theorem NoDD_cons₂ (a b : Char) (r : List Char) :
    NoDD (a :: b :: r) ↔ ¬(a = ' ' ∧ b = ' ') ∧ NoDD (b :: r) := Iff.rfl

theorem NoDD_tail {c : Char} {l : List Char} (h : NoDD (c :: l)) : NoDD l := by
  cases l with
  | nil => trivial
  | cons b r => exact h.2

theorem NoDD_cons (c : Char) (l : List Char) (hl : NoDD l)
    (hd : ∀ d w, l = d :: w → ¬(c = ' ' ∧ d = ' ')) : NoDD (c :: l) := by
  cases l with
  | nil => trivial
  | cons d w => exact ⟨hd d w rfl, hl⟩

theorem NoDD_suffix : ∀ (a b : List Char), NoDD (a ++ b) → NoDD b := by
  intro a
  induction a with
  | nil => exact fun b h => h
  | cons c cs ih => exact fun b h => ih b (NoDD_tail h)

theorem NoDD_of_nonspace (l : List Char) (h : ∀ c ∈ l, isSpaceChar c = false) :
    NoDD l := by
  induction l with
  | nil => trivial
  | cons c cs ih =>
    apply NoDD_cons c cs (ih (fun x hx => h x (by simp [hx])))
    intro d w _ hp
    have hc := h c (by simp)
    rw [hp.1] at hc
    exact absurd hc (by decide)

theorem NoDD_word_space (w : List Char) : ∀ (rest : List Char),
    (∀ c ∈ w, isSpaceChar c = false) →
    (∀ d w2, rest = d :: w2 → isSpaceChar d = false) → NoDD rest →
    NoDD (w ++ ' ' :: rest) := by
  induction w with
  | nil =>
    intro rest hns hd hr
    exact NoDD_cons ' ' rest hr
      (fun d w2 hdw hp => absurd (hd d w2 hdw) (by rw [hp.2]; decide))
  | cons c cs ih =>
    intro rest hns hd hr
    exact NoDD_cons c (cs ++ ' ' :: rest)
      (ih rest (fun x hx => hns x (by simp [hx])) hd hr)
      (fun d w2 hdw hp => absurd (hns c (by simp)) (by rw [hp.1]; decide))

theorem NoDD_joinWords : ∀ ws : List (List Char),
    (∀ w ∈ ws, w ≠ [] ∧ ∀ c ∈ w, isSpaceChar c = false) →
    NoDD (joinWords ws) := by
  intro ws
  induction ws with
  | nil => exact fun _ => trivial
  | cons w ws ih =>
    intro h
    cases ws with
    | nil => exact NoDD_of_nonspace w (h w (by simp)).2
    | cons x ws2 =>
      rw [joinWords_cons₂]
      apply NoDD_word_space w (joinWords (x :: ws2)) (h w (by simp)).2
      · intro d w2 hdw
        obtain ⟨c, cs, hx⟩ := List.exists_cons_of_ne_nil (h x (by simp)).1
        rw [hx] at hdw
        obtain ⟨v, hv⟩ := joinWords_cons_head c cs ws2
        rw [hv] at hdw
        have hcd : c = d := (List.cons.inj hdw).1
        rw [← hcd]
        exact (h x (by simp)).2 c (by rw [hx]; simp)
      · exact ih (fun v hv => h v (by simp [hv]))

theorem isPrefixOf_single (a c : Char) (cs : List Char) :
    List.isPrefixOf [a] (c :: cs) = (a == c) := by
  simp [List.isPrefixOf]

theorem replaceGo_nil (pat rep : List Char) (f : ℕ) : replaceGo pat rep f [] = [] := by
  cases f <;> rfl

theorem replaceGo_succ_cons (pat rep : List Char) (f : ℕ) (c : Char) (cs : List Char) :
    replaceGo pat rep (f + 1) (c :: cs) =
      if !pat.isEmpty && pat.isPrefixOf (c :: cs) then
        rep ++ replaceGo pat rep f (cs.drop (pat.length - 1))
      else c :: replaceGo pat rep f cs := rfl

theorem replaceGo_insNum : ∀ (fuel : ℕ) (u : List Char), u.length ≤ fuel →
    replaceGo ['№'] ['№', ' '] fuel u = insNum u := by
  intro fuel
  induction fuel with
  | zero =>
    intro u hu
    rw [List.length_eq_zero.mp (Nat.le_zero.mp hu)]
    rfl
  | succ f ih =>
    intro u hu
    cases u with
    | nil => rfl
    | cons c cs =>
      have hcs : cs.length ≤ f := by
        simp only [List.length_cons] at hu
        omega
      rw [replaceGo_succ_cons]
      have hcond : (!List.isEmpty ['№'] && List.isPrefixOf ['№'] (c :: cs))
          = ('№' == c) := by
        rw [isPrefixOf_single]
        rfl
      by_cases hc : c = '№'
      · subst hc
        rw [if_pos (by rw [hcond]; decide), show (['№'].length - 1) = 0 from rfl,
          List.drop_zero, ih cs hcs, insNum_num]
        rfl
      · rw [if_neg (by
          rw [hcond]
          simp only [beq_iff_eq]
          exact fun h => hc h.symm), ih cs hcs, insNum_other c cs hc]

theorem replaceL_insNum (u : List Char) : replaceL ['№'] ['№', ' '] u = insNum u :=
  replaceGo_insNum u.length u (le_refl _)

theorem replaceGo_dd : ∀ (fuel : ℕ) (u : List Char), u.length ≤ fuel →
    replaceGo [' ', ' '] [' '] fuel u = dd u := by
  intro fuel
  induction fuel with
  | zero =>
    intro u hu
    rw [List.length_eq_zero.mp (Nat.le_zero.mp hu)]
    rfl
  | succ f ih =>
    intro u hu
    cases u with
    | nil => rfl
    | cons a t =>
      cases t with
      | nil =>
        rw [replaceGo_succ_cons]
        have hpre : (!List.isEmpty [' ', ' '] && List.isPrefixOf [' ', ' '] [a])
            = false := by
          show (true && (' ' == a && List.isPrefixOf [' '] ([] : List Char))) = false
          simp [List.isPrefixOf]
        rw [hpre, if_neg Bool.false_ne_true, replaceGo_nil, dd_single]
      | cons b rest =>
        have hrest1 : (b :: rest).length ≤ f := by
          simp only [List.length_cons] at hu
          simp only [List.length_cons]
          omega
        have hrest : rest.length ≤ f := by
          simp only [List.length_cons] at hrest1
          omega
        rw [replaceGo_succ_cons]
        have hpre : (!List.isEmpty [' ', ' '] && List.isPrefixOf [' ', ' '] (a :: b :: rest))
            = ((' ' == a) && (' ' == b)) := by
          show (true && (' ' == a && (' ' == b && List.isPrefixOf ([] : List Char) rest)))
              = ((' ' == a) && (' ' == b))
          cases rest with
          | nil => simp [List.isPrefixOf]
          | cons x xs => simp [List.isPrefixOf]
        rw [hpre]
        by_cases hab : a = ' ' ∧ b = ' '
        · have hcc : ((' ' == a) && (' ' == b)) = true := by
            rw [hab.1, hab.2]
            decide
          rw [if_pos hcc]
          show ' ' :: replaceGo [' ', ' '] [' '] f ((b :: rest).drop 1)
            = dd (a :: b :: rest)
          rw [hab.1, hab.2, dd_space2]
          show ' ' :: replaceGo [' ', ' '] [' '] f rest = ' ' :: dd rest
          rw [ih rest hrest]
        · have hcc : ¬ (((' ' == a) && (' ' == b)) = true) := by
            simp only [Bool.and_eq_true, beq_iff_eq]
            intro hx
            exact hab ⟨hx.1.symm, hx.2.symm⟩
          rw [if_neg hcc, ih (b :: rest) hrest1, dd_step a b rest hab]

theorem replaceL_dd (u : List Char) : replaceL [' ', ' '] [' '] u = dd u :=
  replaceGo_dd u.length u (le_refl _)


theorem dd_insNum_canon : ∀ (n : ℕ) (u : List Char), u.length ≤ n → NoDD u →
    dd (insNum u) = canon u := by
  intro n
  induction n with
  | zero =>
    intro u hu _
    rw [List.length_eq_zero.mp (Nat.le_zero.mp hu)]
    rfl
  | succ f ih =>
    intro u hu hdd
    cases u with
    | nil => rfl
    | cons c rest =>
      by_cases hc : c = '№'
      · subst hc
        cases rest with
        | nil =>
          rw [insNum_num, canon_num_nil]
          show dd ['№', ' '] = ['№', ' ']
          rw [dd_step '№' ' ' [] (fun hp => absurd hp.1 (by decide)), dd_single]
        | cons c2 r2 =>
          by_cases h2 : c2 = ' '
          · subst h2
            rw [insNum_num, insNum_other ' ' r2 (by decide)]
            rw [dd_step '№' ' ' (' ' :: insNum r2) (fun hp => absurd hp.1 (by decide))]
            rw [dd_space2, canon_num_space]
            rw [ih r2 (by simp only [List.length_cons] at hu; omega)
              (NoDD_tail (NoDD_tail hdd))]
          · obtain ⟨w, hw⟩ := insNum_cons_head c2 r2
            rw [insNum_num, hw]
            rw [dd_step '№' ' ' (c2 :: w) (fun hp => absurd hp.1 (by decide))]
            rw [dd_step ' ' c2 w (fun hp => h2 hp.2)]
            rw [← hw, ih (c2 :: r2)
              (by simp only [List.length_cons] at hu ⊢; omega) (NoDD_tail hdd)]
            rw [canon_num_ns c2 r2 h2]
      · rw [insNum_other c rest hc]
        cases rest with
        | nil =>
          rw [show insNum ([] : List Char) = [] from rfl, dd_single,
            canon_single_other c hc]
        | cons c2 r2 =>
          obtain ⟨w, hw⟩ := insNum_cons_head c2 r2
          rw [hw, dd_step c c2 w hdd.1]
          rw [← hw, ih (c2 :: r2)
            (by simp only [List.length_cons] at hu ⊢; omega) (NoDD_tail hdd)]
          rw [canon_other c c2 r2 hc]

theorem canon_cons_head (c : Char) (r : List Char) : ∃ w, canon (c :: r) = c :: w := by
  cases r with
  | nil =>
    by_cases hc : c = '№'
    · subst hc
      exact ⟨[' '], canon_num_nil⟩
    · exact ⟨[], canon_single_other c hc⟩
  | cons c2 r2 =>
    by_cases hc : c = '№'
    · subst hc
      by_cases h2 : c2 = ' '
      · subst h2
        exact ⟨' ' :: canon r2, canon_num_space r2⟩
      · exact ⟨' ' :: canon (c2 :: r2), canon_num_ns c2 r2 h2⟩
    · exact ⟨canon (c2 :: r2), canon_other c c2 r2 hc⟩

theorem canon_ne_nil (c : Char) (r : List Char) : canon (c :: r) ≠ [] := by
  obtain ⟨w, hw⟩ := canon_cons_head c r
  rw [hw]
  simp

theorem canon_head_ne_space (r2 : List Char)
    (hr2head : ∀ d w, r2 = d :: w → ¬ d = ' ') :
    ∀ d w, canon r2 = d :: w → ¬ d = ' ' := by
  intro d w hdw hd
  cases r2 with
  | nil => exact List.noConfusion hdw
  | cons e r3 =>
    obtain ⟨v, hv⟩ := canon_cons_head e r3
    rw [hv] at hdw
    exact hr2head e r3 rfl (((List.cons.inj hdw).1).trans hd)

theorem canon_chars : ∀ (n : ℕ) (u : List Char), u.length ≤ n →
    ∀ c ∈ canon u, c ∈ u ∨ c = ' ' := by
  intro n
  induction n with
  | zero =>
    intro u hu c hc
    rw [List.length_eq_zero.mp (Nat.le_zero.mp hu)] at hc
    exact absurd hc (List.not_mem_nil c)
  | succ f ih =>
    intro u hu c hc
    cases u with
    | nil => exact absurd hc (List.not_mem_nil c)
    | cons c0 rest =>
      by_cases h0 : c0 = '№'
      · subst h0
        cases rest with
        | nil =>
          rw [canon_num_nil] at hc
          simp only [List.mem_cons] at hc
          rcases hc with hc | hc | hc
          · exact Or.inl (by simp [hc])
          · exact Or.inr hc
          · exact absurd hc (List.not_mem_nil c)
        | cons c2 r2 =>
          by_cases h2 : c2 = ' '
          · subst h2
            rw [canon_num_space] at hc
            simp only [List.mem_cons] at hc
            rcases hc with hc | hc | hc
            · exact Or.inl (by simp [hc])
            · exact Or.inr hc
            · rcases ih r2 (by simp only [List.length_cons] at hu; omega) c hc with
                hr | hr
              · exact Or.inl (by simp [hr])
              · exact Or.inr hr
          · rw [canon_num_ns c2 r2 h2] at hc
            simp only [List.mem_cons] at hc
            rcases hc with hc | hc | hc
            · exact Or.inl (by simp [hc])
            · exact Or.inr hc
            · rcases ih (c2 :: r2) (by simp only [List.length_cons] at hu ⊢; omega)
                c hc with hr | hr
              · refine Or.inl ?_
                simp only [List.mem_cons] at hr ⊢
                tauto
              · exact Or.inr hr
      · cases rest with
        | nil =>
          rw [canon_single_other c0 h0] at hc
          simp only [List.mem_cons] at hc
          rcases hc with hc | hc
          · exact Or.inl (by simp [hc])
          · exact absurd hc (List.not_mem_nil c)
        | cons c2 r2 =>
          rw [canon_other c0 c2 r2 h0] at hc
          simp only [List.mem_cons] at hc
          rcases hc with hc | hc
          · exact Or.inl (by simp [hc])
          · rcases ih (c2 :: r2) (by simp only [List.length_cons] at hu ⊢; omega)
              c hc with hr | hr
            · refine Or.inl ?_
              simp only [List.mem_cons] at hr ⊢
              tauto
            · exact Or.inr hr

theorem canon_NoDD : ∀ (n : ℕ) (u : List Char), u.length ≤ n → NoDD u →
    NoDD (canon u) := by
  intro n
  induction n with
  | zero =>
    intro u hu _
    rw [List.length_eq_zero.mp (Nat.le_zero.mp hu)]
    trivial
  | succ f ih =>
    intro u hu hdd
    cases u with
    | nil => trivial
    | cons c rest =>
      by_cases hc : c = '№'
      · subst hc
        cases rest with
        | nil =>
          rw [canon_num_nil]
          exact ⟨fun hp => absurd hp.1 (by decide), trivial⟩
        | cons c2 r2 =>
          by_cases h2 : c2 = ' '
          · subst h2
            rw [canon_num_space]
            have hr2 : NoDD (canon r2) :=
              ih r2 (by simp only [List.length_cons] at hu; omega)
                (NoDD_tail (NoDD_tail hdd))
            have hr2head : ∀ d w, r2 = d :: w → ¬ d = ' ' := by
              intro d w hdw hd
              have hx := hdd.2
              rw [hdw] at hx
              exact hx.1 ⟨rfl, hd⟩
            refine ⟨fun hp => absurd hp.1 (by decide), ?_⟩
            apply NoDD_cons ' ' (canon r2) hr2
            intro d w hdw hp
            exact canon_head_ne_space r2 hr2head d w hdw hp.2
          · rw [canon_num_ns c2 r2 h2]
            obtain ⟨v, hv⟩ := canon_cons_head c2 r2
            have hih := ih (c2 :: r2)
              (by simp only [List.length_cons] at hu ⊢; omega) (NoDD_tail hdd)
            refine ⟨fun hp => absurd hp.1 (by decide), ?_⟩
            apply NoDD_cons ' ' (canon (c2 :: r2)) hih
            intro d w hdw hp
            rw [hv] at hdw
            exact h2 (((List.cons.inj hdw).1).trans hp.2)
      · cases rest with
        | nil =>
          rw [canon_single_other c hc]
          trivial
        | cons c2 r2 =>
          rw [canon_other c c2 r2 hc]
          obtain ⟨v, hv⟩ := canon_cons_head c2 r2
          apply NoDD_cons c (canon (c2 :: r2))
            (ih (c2 :: r2) (by simp only [List.length_cons] at hu ⊢; omega)
              (NoDD_tail hdd))
          intro d w hdw hp
          rw [hv] at hdw
          exact hdd.1 ⟨hp.1, ((List.cons.inj hdw).1).trans hp.2⟩

theorem rstrip_cons_of_ne (c : Char) (l : List Char) (h : rstripSpace l ≠ []) :
    rstripSpace (c :: l) = c :: rstripSpace l := by
  unfold rstripSpace at h ⊢
  rw [show (c :: l).reverse = l.reverse ++ [c] by simp, List.dropWhile_append]
  by_cases he : (l.reverse.dropWhile isSpaceChar).isEmpty
  · exfalso
    apply h
    rw [List.isEmpty_iff.mp he]
    rfl
  · rw [if_neg he]
    simp

theorem rstrip_length_le (l : List Char) : (rstripSpace l).length ≤ l.length := by
  unfold rstripSpace
  rw [List.length_reverse]
  calc (l.reverse.dropWhile isSpaceChar).length
      ≤ l.reverse.length := (List.dropWhile_suffix _).length_le
    _ = l.length := List.length_reverse _

theorem rstrip_decomp (l : List Char) :
    ∃ sfx, l = rstripSpace l ++ sfx ∧ ∀ c ∈ sfx, isSpaceChar c = true := by
  refine ⟨(l.reverse.takeWhile isSpaceChar).reverse, ?_, ?_⟩
  · calc l = (l.reverse).reverse := (List.reverse_reverse l).symm
      _ = (l.reverse.takeWhile isSpaceChar ++ l.reverse.dropWhile isSpaceChar).reverse := by
          rw [List.takeWhile_append_dropWhile]
      _ = (l.reverse.dropWhile isSpaceChar).reverse
            ++ (l.reverse.takeWhile isSpaceChar).reverse := by
          rw [List.reverse_append]
  · intro c hc
    rw [List.mem_reverse] at hc
    exact List.mem_takeWhile_imp hc


theorem dropWhile_head_not (p : Char → Bool) : ∀ (l : List Char) (d : Char) (w : List Char),
    l.dropWhile p = d :: w → p d = false := by
  intro l
  induction l with
  | nil =>
    intro d w h
    exact List.noConfusion h
  | cons a t ih =>
    intro d w h
    by_cases ha : p a
    · rw [List.dropWhile_cons_of_pos ha] at h
      exact ih d w h
    · rw [List.dropWhile_cons_of_neg ha] at h
      rw [← (List.cons.inj h).1]
      cases hpa : p a with
      | false => rfl
      | true => exact absurd hpa ha

theorem collapse_clean : ∀ (n : ℕ) (v : List Char), v.length ≤ n →
    NoDD v → (∀ c ∈ v, isSpaceChar c = false ∨ c = ' ') →
    (∀ d w, v = d :: w → isSpaceChar d = false) →
    joinWords (words v) = rstripSpace v := by
  intro n
  induction n with
  | zero =>
    intro v hv _ _ _
    rw [List.length_eq_zero.mp (Nat.le_zero.mp hv)]
    rfl
  | succ f ih =>
    intro v hv hdd hsp hhd
    cases v with
    | nil => rfl
    | cons c rest =>
      have hc : isSpaceChar c = false := hhd c rest rfl
      rw [words_cons_nonspace rest hc]
      have htknsp : ∀ x ∈ rest.takeWhile (fun y => !isSpaceChar y),
          isSpaceChar x = false := by
        intro x hx
        simpa using List.mem_takeWhile_imp hx
      cases hdpe : rest.dropWhile (fun y => !isSpaceChar y) with
      | nil =>
        rw [words_nil, joinWords_single]
        have hrest : rest = rest.takeWhile (fun y => !isSpaceChar y) := by
          conv_lhs => rw [← List.takeWhile_append_dropWhile (fun y => !isSpaceChar y) rest]
          rw [hdpe, List.append_nil]
        have hall : ∀ x ∈ c :: rest, isSpaceChar x = false := by
          intro x hx
          rcases List.mem_cons.mp hx with rfl | hx
          · exact hc
          · rw [hrest] at hx
            exact htknsp x hx
        rw [rstrip_all_nonspace (c :: rest) hall, ← hrest]
      | cons d d2 =>
        have hdt := dropWhile_head_not (fun y => !isSpaceChar y) rest d d2 hdpe
        have hd : isSpaceChar d = true := by simpa using hdt
        have hsub : rest.dropWhile (fun y => !isSpaceChar y) ⊆ rest :=
          (List.dropWhile_suffix _).subset
        have hdmem : d ∈ rest := hsub (by rw [hdpe]; simp)
        have hdsp : d = ' ' := by
          rcases hsp d (by simp [hdmem]) with h | h
          · rw [hd] at h
            exact Bool.noConfusion h
          · exact h
        have hsufdd : NoDD (d :: d2) := by
          apply NoDD_suffix (c :: rest.takeWhile (fun y => !isSpaceChar y)) (d :: d2)
          have hre : rest.takeWhile (fun y => !isSpaceChar y) ++ (d :: d2) = rest := by
            rw [← hdpe]
            exact List.takeWhile_append_dropWhile _ _
          rw [List.cons_append, hre]
          exact hdd
        cases d2 with
        | nil =>
          rw [words_cons_space ([] : List Char) hd, words_nil, joinWords_single]
          have hrest2 : c :: rest = (c :: rest.takeWhile (fun y => !isSpaceChar y))
              ++ [d] := by
            have hre : rest = rest.takeWhile (fun y => !isSpaceChar y) ++ [d] := by
              conv_lhs =>
                rw [← List.takeWhile_append_dropWhile (fun y => !isSpaceChar y) rest]
              rw [hdpe]
            rw [List.cons_append, ← hre]
          rw [hrest2]
          rw [rstrip_append_all_space _ [d] (by
            intro x hx
            rw [List.mem_singleton.mp hx]
            exact hd)]
          rw [rstrip_all_nonspace (c :: rest.takeWhile (fun y => !isSpaceChar y)) (by
            intro x hx
            rcases List.mem_cons.mp hx with rfl | hx
            · exact hc
            · exact htknsp x hx)]
        | cons e d3 =>
          have hene : ¬ e = ' ' := fun he => hsufdd.1 ⟨hdsp, he⟩
          have hemem : e ∈ rest := hsub (by rw [hdpe]; simp)
          have hens : isSpaceChar e = false := by
            rcases hsp e (by simp [hemem]) with h | h
            · exact h
            · exact absurd h hene
          rw [words_cons_space (e :: d3) hd]
          have hlen : (e :: d3).length ≤ f := by
            have h1 : (rest.dropWhile (fun y => !isSpaceChar y)).length ≤ rest.length :=
              (List.dropWhile_suffix _).length_le
            rw [hdpe] at h1
            simp only [List.length_cons] at h1 hv ⊢
            omega
          have hmemv : ∀ x ∈ e :: d3, x ∈ c :: rest := by
            intro x hx
            have h1 : x ∈ rest.dropWhile (fun y => !isSpaceChar y) := by
              rw [hdpe]
              simp [List.mem_cons.mp hx]
            simp [hsub h1]
          have hih := ih (e :: d3) hlen (NoDD_tail hsufdd)
            (fun x hx => hsp x (hmemv x hx))
            (fun dx wx hdx => by
              rw [← (List.cons.inj hdx).1]
              exact hens)
          cases hwe : words (e :: d3) with
          | nil =>
            exfalso
            rw [words_cons_nonspace d3 hens] at hwe
            exact List.noConfusion hwe
          | cons w0 ws0 =>
            rw [joinWords_cons₂, ← hwe, hih]
            have hrdec : c :: rest = (c :: rest.takeWhile (fun y => !isSpaceChar y))
                ++ (' ' :: e :: d3) := by
              have hre : rest = rest.takeWhile (fun y => !isSpaceChar y)
                  ++ (d :: e :: d3) := by
                conv_lhs =>
                  rw [← List.takeWhile_append_dropWhile (fun y => !isSpaceChar y) rest]
                rw [hdpe]
              rw [List.cons_append, ← hdsp, ← hre]
            rw [hrdec]
            have hrne : rstripSpace (' ' :: e :: d3) ≠ [] := by
              rw [rstrip_cons_of_ne ' ' (e :: d3) (rstrip_ne_nil e d3 hens)]
              simp
            rw [rstrip_append_of_ne _ _ hrne]
            rw [rstrip_cons_of_ne ' ' (e :: d3) (rstrip_ne_nil e d3 hens)]


theorem canon_rstrip_fix : ∀ (n : ℕ) (u : List Char), u.length ≤ n → NoDD u →
    (∀ c ∈ u, isSpaceChar c = false ∨ c = ' ') → u.getLast? ≠ some ' ' →
    canon (rstripSpace (canon u)) = canon u ∧
      u.length ≤ (rstripSpace (canon u)).length := by
  intro n
  induction n with
  | zero =>
    intro u hu _ _ _
    rw [List.length_eq_zero.mp (Nat.le_zero.mp hu)]
    exact ⟨rfl, by simp⟩
  | succ f ih =>
    intro u hu hdd hsp hlast
    cases u with
    | nil => exact ⟨rfl, by simp⟩
    | cons c rest =>
      cases rest with
      | nil =>
        by_cases hc : c = '№'
        · subst hc
          have h1 : rstripSpace ['№', ' '] = ['№'] := by
            rw [show (['№', ' '] : List Char) = ['№'] ++ [' '] from rfl,
              rstrip_append_all_space ['№'] [' '] (by
                intro x hx
                rw [List.mem_singleton.mp hx]
                decide)]
            exact rstrip_all_nonspace ['№'] (by
              intro x hx
              rw [List.mem_singleton.mp hx]
              decide)
          constructor
          · rw [canon_num_nil, h1, canon_num_nil]
          · rw [canon_num_nil, h1]
        · have ha : ¬ c = ' ' := by
            intro h
            apply hlast
            rw [h]
            rfl
          have hans : isSpaceChar c = false := by
            rcases hsp c (by simp) with h | h
            · exact h
            · exact absurd h ha
          have h1 : rstripSpace [c] = [c] :=
            rstrip_all_nonspace [c] (by
              intro x hx
              rw [List.mem_singleton.mp hx]
              exact hans)
          constructor
          · rw [canon_single_other c hc, h1, canon_single_other c hc]
          · rw [canon_single_other c hc, h1]
      | cons c2 r =>
        by_cases hc : c = '№'
        · subst hc
          by_cases h2 : c2 = ' '
          · subst h2
            cases r with
            | nil => exact absurd rfl hlast
            | cons e r3 =>
              have hrdd : NoDD (e :: r3) := NoDD_tail (NoDD_tail hdd)
              have hspr : ∀ x ∈ e :: r3, isSpaceChar x = false ∨ x = ' ' :=
                fun x hx => hsp x (by simp [List.mem_cons.mp hx])
              have hlast2 : (e :: r3).getLast? ≠ some ' ' := by
                intro h
                apply hlast
                rw [List.getLast?_cons_cons, List.getLast?_cons_cons]
                exact h
              obtain ⟨hfix, hlen2⟩ := ih (e :: r3)
                (by simp only [List.length_cons] at hu ⊢; omega) hrdd hspr hlast2
              have hrne : rstripSpace (canon (e :: r3)) ≠ [] := by
                intro h0
                rw [h0] at hlen2
                simp only [List.length_cons, List.length_nil] at hlen2
                omega
              have hstep : rstripSpace ('№' :: ' ' :: canon (e :: r3))
                  = '№' :: ' ' :: rstripSpace (canon (e :: r3)) := by
                rw [rstrip_cons_nonspace '№' _ (by decide), rstrip_cons_of_ne ' ' _ hrne]
              constructor
              · rw [canon_num_space, hstep, canon_num_space, hfix]
              · rw [canon_num_space, hstep]
                simp only [List.length_cons] at hlen2 ⊢
                omega
          · have hrdd : NoDD (c2 :: r) := NoDD_tail hdd
            have hspr : ∀ x ∈ c2 :: r, isSpaceChar x = false ∨ x = ' ' :=
              fun x hx => hsp x (by simp [List.mem_cons.mp hx])
            have hlast2 : (c2 :: r).getLast? ≠ some ' ' := by
              intro h
              apply hlast
              rw [List.getLast?_cons_cons]
              exact h
            obtain ⟨hfix, hlen2⟩ := ih (c2 :: r)
              (by simp only [List.length_cons] at hu ⊢; omega) hrdd hspr hlast2
            have hrne : rstripSpace (canon (c2 :: r)) ≠ [] := by
              intro h0
              rw [h0] at hlen2
              simp only [List.length_cons, List.length_nil] at hlen2
              omega
            have hstep : rstripSpace ('№' :: ' ' :: canon (c2 :: r))
                = '№' :: ' ' :: rstripSpace (canon (c2 :: r)) := by
              rw [rstrip_cons_nonspace '№' _ (by decide), rstrip_cons_of_ne ' ' _ hrne]
            constructor
            · rw [canon_num_ns c2 r h2, hstep, canon_num_space, hfix]
            · rw [canon_num_ns c2 r h2, hstep]
              simp only [List.length_cons] at hlen2 ⊢
              omega
        · have hrdd : NoDD (c2 :: r) := NoDD_tail hdd
          have hspr : ∀ x ∈ c2 :: r, isSpaceChar x = false ∨ x = ' ' :=
            fun x hx => hsp x (by simp [List.mem_cons.mp hx])
          have hlast2 : (c2 :: r).getLast? ≠ some ' ' := by
            intro h
            apply hlast
            rw [List.getLast?_cons_cons]
            exact h
          obtain ⟨hfix, hlen2⟩ := ih (c2 :: r)
            (by simp only [List.length_cons] at hu ⊢; omega) hrdd hspr hlast2
          have hrne : rstripSpace (canon (c2 :: r)) ≠ [] := by
            intro h0
            rw [h0] at hlen2
            simp only [List.length_cons, List.length_nil] at hlen2
            omega
          have hstep : rstripSpace (c :: canon (c2 :: r))
              = c :: rstripSpace (canon (c2 :: r)) := by
            rcases hsp c (by simp) with h | h
            · exact rstrip_cons_nonspace c _ h
            · rw [h]
              exact rstrip_cons_of_ne ' ' _ hrne
          obtain ⟨x0, xs, hx⟩ := List.exists_cons_of_ne_nil hrne
          constructor
          · rw [canon_other c c2 r hc, hstep, hx, canon_other c x0 xs hc, ← hx, hfix]
          · rw [canon_other c c2 r hc, hstep]
            simp only [List.length_cons] at hlen2 ⊢
            omega


theorem NoDD_prefix : ∀ (a b : List Char), NoDD (a ++ b) → NoDD a := by
  intro a
  induction a with
  | nil => exact fun _ _ => trivial
  | cons c cs ih =>
    intro b h
    cases cs with
    | nil => trivial
    | cons d r => exact ⟨h.1, ih b h.2⟩

theorem getLast_mem : ∀ (l : List Char) (a : Char), l.getLast? = some a → a ∈ l := by
  intro l
  induction l with
  | nil =>
    intro a h
    exact Option.noConfusion h
  | cons c rest ih =>
    intro a h
    cases rest with
    | nil =>
      have hc : c = a := Option.some.inj h
      rw [hc]
      simp
    | cons d r2 =>
      rw [List.getLast?_cons_cons] at h
      simp [ih a h]

theorem getLast_append : ∀ (a : List Char) (c : Char) (b : List Char),
    (a ++ c :: b).getLast? = (c :: b).getLast? := by
  intro a
  induction a with
  | nil =>
    intro c b
    rfl
  | cons x xs ih =>
    intro c b
    obtain ⟨y, ys, hy⟩ := List.exists_cons_of_ne_nil (show xs ++ c :: b ≠ [] by simp)
    rw [List.cons_append, hy, List.getLast?_cons_cons, ← hy, ih c b]

theorem joinWords_getLast : ∀ ws : List (List Char),
    (∀ w ∈ ws, w ≠ [] ∧ ∀ c ∈ w, isSpaceChar c = false) →
    ∀ a, (joinWords ws).getLast? = some a → isSpaceChar a = false := by
  intro ws
  induction ws with
  | nil =>
    intro _ a h
    exact Option.noConfusion h
  | cons w ws ih =>
    intro hgood a h
    cases ws with
    | nil =>
      rw [joinWords_single] at h
      exact (hgood w (by simp)).2 a (getLast_mem w a h)
    | cons x ws2 =>
      rw [joinWords_cons₂, getLast_append] at h
      obtain ⟨cx, xs2, hx⟩ := List.exists_cons_of_ne_nil (hgood x (by simp)).1
      obtain ⟨v, hv⟩ := joinWords_cons_head cx xs2 ws2
      rw [← hx] at hv
      rw [hv, List.getLast?_cons_cons] at h
      exact ih (fun w2 hw2 => hgood w2 (by simp [hw2])) a (by rw [hv]; exact h)

theorem validate_school_of (s : String)
    (h3 : ¬ (stripChars s.data).length < 3) :
    validate_school s =
      (true, ⟨replaceL [' ', ' '] [' '] (replaceL ['№'] ['№', ' '] (collapse s.data))⟩,
       some ⟨replaceL [' ', ' '] [' '] (replaceL ['№'] ['№', ' '] (collapse s.data))⟩) := by
  unfold validate_school
  dsimp only
  rw [if_neg h3]

theorem validate_school_accept_inv (s : String) (h : (validate_school s).1 = true) :
    ¬ (stripChars s.data).length < 3 ∧
    (validate_school s).2.2 =
      some ⟨replaceL [' ', ' '] [' '] (replaceL ['№'] ['№', ' '] (collapse s.data))⟩ := by
  by_cases h3 : (stripChars s.data).length < 3
  · exfalso
    unfold validate_school at h
    dsimp only at h
    rw [if_pos h3] at h
    exact Bool.noConfusion h
  · exact ⟨h3, by rw [validate_school_of s h3]⟩

theorem school_norm_canon (s : String) :
    replaceL [' ', ' '] [' '] (replaceL ['№'] ['№', ' '] (collapse s.data))
      = canon (collapse s.data) := by
  rw [replaceL_insNum, replaceL_dd]
  exact dd_insNum_canon (collapse s.data).length (collapse s.data) (le_refl _)
    (NoDD_joinWords (words s.data)
      (fun w hw => ⟨words_nonempty hw, words_nonspace hw⟩))

theorem validate_school_idem (s o : String)
    (h1 : (validate_school s).1 = true)
    (h2 : (validate_school s).2.2 = some o) :
    validate_school o = (true, o, some o) := by
  obtain ⟨h3, hval⟩ := validate_school_accept_inv s h1
  rw [h2] at hval
  have ho : o = ⟨replaceL [' ', ' '] [' ']
      (replaceL ['№'] ['№', ' '] (collapse s.data))⟩ := Option.some.inj hval
  have hcanon : o.data = canon (collapse s.data) := by
    rw [ho]
    exact school_norm_canon s
  have hgood : ∀ w ∈ words s.data, w ≠ [] ∧ ∀ c ∈ w, isSpaceChar c = false :=
    fun w hw => ⟨words_nonempty hw, words_nonspace hw⟩
  have hwsne : words s.data ≠ [] := by
    intro h0
    exact h3 (by rw [stripChars_of_words_nil s.data h0]; simp)
  obtain ⟨w0, ws0, hws⟩ := List.exists_cons_of_ne_nil hwsne
  have ht1dd : NoDD (collapse s.data) := NoDD_joinWords (words s.data) hgood
  have ht1sp : ∀ c ∈ collapse s.data, isSpaceChar c = false ∨ c = ' ' := by
    intro c hcm
    rcases joinWords_chars (words s.data) c hcm with ⟨w, hw, hcw⟩ | rfl
    · exact Or.inl (words_nonspace hw c hcw)
    · exact Or.inr rfl
  have ht1last : (collapse s.data).getLast? ≠ some ' ' := by
    intro hlast
    exact absurd (joinWords_getLast (words s.data) hgood ' ' hlast) (by decide)
  obtain ⟨hfix, hlen⟩ := canon_rstrip_fix (collapse s.data).length (collapse s.data)
    (le_refl _) ht1dd ht1sp ht1last
  have ht1len : 3 ≤ (collapse s.data).length := by
    cases ws0 with
    | nil =>
      have hsingle : stripChars s.data = w0 :=
        stripChars_of_words_single s.data w0 (by rw [hws])
      have hcol : collapse s.data = w0 := by
        show joinWords (words s.data) = w0
        rw [hws, joinWords_single]
      rw [hcol, ← hsingle]
      omega
    | cons w1 ws1 =>
      have hjl : 3 ≤ (joinWords (w0 :: w1 :: ws1)).length :=
        joinWords_cons₂_length w0 w1 ws1 (hgood w0 (by rw [hws]; simp)).1
          (hgood w1 (by rw [hws]; simp)).1
      show 3 ≤ (joinWords (words s.data)).length
      rw [hws]
      exact hjl
  have hodd : NoDD o.data := by
    rw [hcanon]
    exact canon_NoDD (collapse s.data).length _ (le_refl _) ht1dd
  have hosp : ∀ c ∈ o.data, isSpaceChar c = false ∨ c = ' ' := by
    intro c hcm
    rw [hcanon] at hcm
    rcases canon_chars (collapse s.data).length _ (le_refl _) c hcm with h | h
    · exact ht1sp c h
    · exact Or.inr h
  obtain ⟨c0, w0t, hw0⟩ := List.exists_cons_of_ne_nil (hgood w0 (by rw [hws]; simp)).1
  have hc0ns : isSpaceChar c0 = false :=
    (hgood w0 (by rw [hws]; simp)).2 c0 (by rw [hw0]; simp)
  obtain ⟨v1, hv1⟩ : ∃ v1, collapse s.data = c0 :: v1 := by
    obtain ⟨v1, hv1⟩ := joinWords_cons_head c0 w0t ws0
    refine ⟨v1, ?_⟩
    show joinWords (words s.data) = c0 :: v1
    rw [hws, hw0]
    exact hv1
  obtain ⟨v2, hv2⟩ : ∃ v2, o.data = c0 :: v2 := by
    rw [hcanon, hv1]
    exact canon_cons_head c0 v1
  have hstripo : stripChars o.data = rstripSpace o.data := by
    rw [hv2]
    exact stripChars_of_head v2 hc0ns
  have h3o : ¬ (stripChars o.data).length < 3 := by
    rw [hstripo, hcanon]
    omega
  rw [validate_school_of o h3o]
  have hcore : replaceL [' ', ' '] [' '] (replaceL ['№'] ['№', ' '] (collapse o.data))
      = o.data := by
    rw [replaceL_insNum, replaceL_dd]
    have hcol : collapse o.data = rstripSpace o.data := by
      show joinWords (words o.data) = rstripSpace o.data
      apply collapse_clean o.data.length o.data (le_refl _) hodd hosp
      intro d w hdw
      rw [hv2] at hdw
      rw [← (List.cons.inj hdw).1]
      exact hc0ns
    rw [hcol, hcanon]
    have hpdd : NoDD (rstripSpace (canon (collapse s.data))) := by
      obtain ⟨sfx, hdec, hsfx⟩ := rstrip_decomp (canon (collapse s.data))
      apply NoDD_prefix (rstripSpace (canon (collapse s.data))) sfx
      rw [← hdec]
      exact canon_NoDD (collapse s.data).length _ (le_refl _) ht1dd
    rw [dd_insNum_canon (rstripSpace (canon (collapse s.data))).length _ (le_refl _)
      hpdd]
    exact hfix
  rw [hcore]


/-- **C10 is false on the code**: `validate_fio` is not idempotent on its own
output.  The input `"ab  c"` passes the 5-character pre-check (measured before
space collapsing), is accepted, and normalizes to the 4-character `"Ab C"`;
feeding that output back in fails the same length check and is rejected. -/
theorem claim10_counterexample :
    (validate_fio "ab  c").1 = true ∧
    (validate_fio "ab  c").2.2 = some "Ab C" ∧
    (validate_fio "Ab C").1 = false := by
  refine ⟨?_, ?_, ?_⟩ <;> decide

/-- **C10 (amended)**: `validate_city`, `validate_school` and `validate_grade`
are idempotent on their accepted normalized outputs; `validate_fio` is
idempotent provided the normalized output still meets the 5-character
minimum (space collapsing can shorten an accepted input below it, in which
case re-validation rejects the validator's own output). -/
theorem claim10_validator_idempotence (s o : String) :
    (((validate_fio s).1 = true ∧ (validate_fio s).2.2 = some o ∧ 5 ≤ o.length) →
      validate_fio o = (true, o, some o)) ∧
    (((validate_city s).1 = true ∧ (validate_city s).2.2 = some o) →
      validate_city o = (true, o, some o)) ∧
    (((validate_school s).1 = true ∧ (validate_school s).2.2 = some o) →
      validate_school o = (true, o, some o)) ∧
    (((validate_grade s).1 = true ∧ (validate_grade s).2.2 = some o) →
      validate_grade o = (true, o, some o)) := by
  refine ⟨?_, ?_, ?_, ?_⟩
  · rintro ⟨h1, h2, h3⟩
    exact validate_fio_idem s o h1 h2 h3
  · rintro ⟨h1, h2⟩
    exact validate_city_idem s o h1 h2
  · rintro ⟨h1, h2⟩
    exact validate_school_idem s o h1 h2
  · rintro ⟨h1, h2⟩
    exact validate_grade_idem s o h1 h2

theorem claim10_validator_idempotence_witness :
    validate_fio "Иванов Иван" = (true, "Иванов Иван", some "Иванов Иван") ∧
    validate_city "Москва" = (true, "Москва", some "Москва") ∧
    validate_school "школа № 5" = (true, "школа № 5", some "школа № 5") ∧
    validate_grade "9А" = (true, "9А", some "9А") := by
  refine ⟨?_, ?_, ?_, ?_⟩
  · exact (claim10_validator_idempotence "иванов иван" "Иванов Иван").1
      ⟨by decide, by decide, by decide⟩
  · exact (claim10_validator_idempotence "москва" "Москва").2.1
      ⟨by decide, by decide⟩
  · exact (claim10_validator_idempotence "школа №5" "школа № 5").2.2.1
      ⟨by decide, by decide⟩
  · exact (claim10_validator_idempotence "9а" "9А").2.2.2
      ⟨by decide, by decide⟩


end TochkaBot
